import Mathlib

/-!
Shallow embedding of the cryptographic core of an R1CS zero-knowledge argument
(commitments.rs, transcript.rs, random.rs, nizk/mod.rs, r1csproof.rs), together
with models of the external collaborators that those sources reference but that
are outside the five core files (bullet reduction, zero-knowledge sum-check,
dense and sparse multilinear polynomials, R1CS instance container); such models
carry a doc comment starting with "Modelled from the spec".

The scalar field F is an arbitrary field; the elliptic-curve group is an
arbitrary F-module Grp, so the group-exponent arithmetic of the sources becomes
module algebra.  The Merlin transcript is a log of absorbed entries; challenge
extraction is a function rho of the log and the label, shared by prover and
verifier, modelling the Fiat-Shamir hash, and squeezing ratchets the log.  The
SHAKE-derived generator stream of commitments.rs is an oracle gensOf from label
and index to group elements.  A Rust panic (failed assert) is modelled as none;
a verification failure as some (Except.error ...).
-/

set_option linter.unusedSectionVars false
set_option linter.unusedVariables false

namespace Spartan

section Defs

variable {F : Type} [Field F] [DecidableEq F]
variable {Grp : Type} [AddCommGroup Grp] [Module F Grp] [DecidableEq Grp]

instance : Fact (Nat.Prime 11) := ⟨by norm_num⟩

/-- Option bind on a present value, in the form produced by do-notation. -/
@[simp] theorem obind_some {alpha beta : Type} (a : alpha) (f : alpha → Option beta) :
    (Bind.bind (some a) f : Option beta) = f a := rfl

/-- Error type of the verification routines (errors.rs). -/
inductive ProofVerifyError where
  | internalError
deriving DecidableEq

instance {eps alpha : Type} [DecidableEq eps] [DecidableEq alpha] :
    DecidableEq (Except eps alpha) := fun x y =>
  match x, y with
  | Except.error a, Except.error b =>
    if h : a = b then isTrue (by rw [h])
    else isFalse (by intro hc; cases hc; exact h rfl)
  | Except.ok a, Except.ok b =>
    if h : a = b then isTrue (by rw [h])
    else isFalse (by intro hc; cases hc; exact h rfl)
  | Except.error _, Except.ok _ => isFalse (by intro hc; cases hc)
  | Except.ok _, Except.error _ => isFalse (by intro hc; cases hc)

/-- Modelled from the spec: math.rs (not among the sources) provides
Math::log_2; for a power of two it is the exponent.  Structural fuel
recursion keeps it kernel-computable. -/
def log2fuel : Nat → Nat → Nat
  | 0, _ => 0
  | fuel + 1, n => if 2 ≤ n then log2fuel fuel (n / 2) + 1 else 0

/-- Modelled from the spec: Math::log_2. -/
def log_2 (n : Nat) : Nat := log2fuel n n

/-- Result of a Rust verification routine: none models a panic (a failed
assert), some (Except.error e) a returned error, some (Except.ok a) success. -/
abbrev OE (eps : Type) (alpha : Type) : Type := Option (Except eps alpha)

instance : Monad (OE eps) where
  pure a := some (Except.ok a)
  bind x f :=
    match x with
    | none => none
    | some (Except.error e) => some (Except.error e)
    | some (Except.ok a) => f a

@[simp] theorem OE.pure_def {eps alpha : Type} (a : alpha) :
    (pure a : OE eps alpha) = some (Except.ok a) := rfl

@[simp] theorem OE.bind_ok {eps alpha beta : Type} (a : alpha) (f : alpha → OE eps beta) :
    (Bind.bind (some (Except.ok a)) f : OE eps beta) = f a := rfl

@[simp] theorem OE.bind_err {eps alpha beta : Type} (e : eps) (f : alpha → OE eps beta) :
    (Bind.bind (some (Except.error e)) f : OE eps beta) = some (Except.error e) := rfl

@[simp] theorem OE.bind_none {eps alpha beta : Type} (f : alpha → OE eps beta) :
    (Bind.bind (none : OE eps alpha) f : OE eps beta) = none := rfl

/-- Lift a possibly-panicking computation onto the verifier path. -/
def OE.lift {eps alpha : Type} (o : Option alpha) : OE eps alpha := o.map Except.ok

@[simp] theorem OE.lift_some {eps alpha : Type} (a : alpha) :
    (OE.lift (some a) : OE eps alpha) = some (Except.ok a) := rfl

@[simp] theorem OE.lift_none {eps alpha : Type} :
    (OE.lift none : OE eps alpha) = none := rfl

/-- A Rust assert on the prover path: panics (none) when the condition fails. -/
def passert (b : Prop) [Decidable b] : Option Unit := if b then some () else none

@[simp] theorem passert_pos {b : Prop} [Decidable b] (h : b) : passert b = some () := by
  simp [passert, h]

@[simp] theorem passert_neg {b : Prop} [Decidable b] (h : ¬ b) : passert b = none := by
  simp [passert, h]

/-- A Rust assert on the verifier path: panics (none) when the condition fails. -/
def vassert (b : Prop) [Decidable b] : OE ProofVerifyError Unit :=
  if b then pure () else none

@[simp] theorem vassert_pos {b : Prop} [Decidable b] (h : b) :
    vassert b = some (Except.ok ()) := by
  simp [vassert, h]

@[simp] theorem vassert_neg {b : Prop} [Decidable b] (h : ¬ b) :
    vassert b = none := by
  simp [vassert, h]

/-- A boolean verification check: the opaque internal error on failure. -/
def vcheck (b : Prop) [Decidable b] : OE ProofVerifyError Unit :=
  if b then pure () else some (Except.error ProofVerifyError.internalError)

@[simp] theorem vcheck_pos {b : Prop} [Decidable b] (h : b) :
    vcheck b = some (Except.ok ()) := by
  simp [vcheck, h]

@[simp] theorem vcheck_neg {b : Prop} [Decidable b] (h : ¬ b) :
    vcheck b = some (Except.error ProofVerifyError.internalError) := by
  simp [vcheck, h]

/-- One absorbed or squeezed item of a Merlin transcript (transcript.rs):
byte messages, canonically serialized scalars and points, vector framing is
produced by the list-absorb operation, and a squeeze marker records that a
challenge was extracted (the STROBE state ratchets on a squeeze). -/
inductive TEntry (F Grp : Type) where
  | msg (label body : String)
  | scalar (label : String) (x : F)
  | point (label : String) (p : Grp)
  | vec (label : String) (xs : List F)
  | squeeze (label : String)
deriving DecidableEq

/-- A Merlin transcript state: the log of entries, most recent first. -/
abbrev Tr (F Grp : Type) : Type := List (TEntry F Grp)

/-- transcript.rs: append_message. -/
def appendMessage {F Grp : Type} (label body : String) (t : Tr F Grp) : Tr F Grp :=
  TEntry.msg label body :: t

/-- transcript.rs: append_scalar (canonical little-endian serialization). -/
def appendScalar {F Grp : Type} (label : String) (x : F) (t : Tr F Grp) : Tr F Grp :=
  TEntry.scalar label x :: t

/-- transcript.rs: append_point (canonical serialization). -/
def appendPoint {F Grp : Type} (label : String) (p : Grp) (t : Tr F Grp) : Tr F Grp :=
  TEntry.point label p :: t

/-- transcript.rs: AppendToTranscript for a scalar slice, framed by
begin_append_vector and end_append_vector marker messages. -/
def appendScalarList {F Grp : Type} (label : String) (xs : List F) (t : Tr F Grp) : Tr F Grp :=
  appendMessage label "end_append_vector"
    (xs.foldl (fun s x => appendScalar label x s)
      (appendMessage label "begin_append_vector" t))

/-- transcript.rs: challenge_scalar.  The value is the Fiat-Shamir oracle rho
applied to the current log and the label; the squeeze marker ratchets the
state so later challenges differ. -/
def challengeScalar {F Grp : Type} (rho : Tr F Grp → String → F) (label : String)
    (t : Tr F Grp) : F × Tr F Grp :=
  (rho t label, TEntry.squeeze label :: t)

/-- transcript.rs: challenge_vector, squeezing the same label repeatedly. -/
def challengeVector {F Grp : Type} (rho : Tr F Grp → String → F) (label : String)
    (k : Nat) (t : Tr F Grp) : List F × Tr F Grp :=
  match k with
  | 0 => ([], t)
  | Nat.succ k =>
    let p1 := challengeScalar rho label t
    let p2 := challengeVector rho label k p1.2
    (p1.1 :: p2.1, p2.2)

/-- merlin: Transcript::new(name) starts the log with a domain separator. -/
def Transcript.new {F Grp : Type} (name : String) : Tr F Grp :=
  [TEntry.msg "dom-sep" name]

/-- random.rs: a RandomTape is a prover-private Merlin transcript. -/
abbrev RandomTape (F Grp : Type) : Type := Tr F Grp

/-- random.rs: RandomTape::random_scalar squeezes the tape. -/
def RandomTape.random_scalar {F Grp : Type} (rho : Tr F Grp → String → F)
    (label : String) (tape : RandomTape F Grp) : F × RandomTape F Grp :=
  challengeScalar rho label tape

/-- random.rs: RandomTape::random_vector squeezes the tape repeatedly. -/
def RandomTape.random_vector {F Grp : Type} (rho : Tr F Grp → String → F)
    (label : String) (k : Nat) (tape : RandomTape F Grp) : List F × RandomTape F Grp :=
  challengeVector rho label k tape

/-- commitments.rs: a generator set, n generators plus the blinding base h. -/
structure MultiCommitGens (Grp : Type) where
  n : Nat
  G : List Grp
  h : Grp
deriving DecidableEq

/-- commitments.rs: MultiCommitGens::new draws n+1 group elements from a PRNG
seeded by SHAKE256 of the label and the canonical group generator; the stream
is modelled by the oracle gensOf applied to the label and the draw index. -/
def MultiCommitGens.new {Grp : Type} (gensOf : String → Nat → Grp)
    (n : Nat) (label : String) : MultiCommitGens Grp :=
  { n := n, G := (List.range n).map (gensOf label), h := gensOf label n }

/-- commitments.rs: MultiCommitGens::split_at(mid); Vec::split_at panics when
mid exceeds the length. -/
def MultiCommitGens.split_at {Grp : Type} (g : MultiCommitGens Grp) (mid : Nat) :
    Option (MultiCommitGens Grp × MultiCommitGens Grp) :=
  if mid ≤ g.G.length then
    some ({ n := (g.G.take mid).length, G := g.G.take mid, h := g.h },
          { n := (g.G.drop mid).length, G := g.G.drop mid, h := g.h })
  else none

/-- Well-formedness of a length-1 generator set as produced by the
constructors: the declared size is 1 and there is exactly one generator. -/
def MultiCommitGens.wf1 {Grp : Type} (g : MultiCommitGens Grp) : Prop :=
  g.n = 1 ∧ g.G.length = 1

instance {Grp : Type} (g : MultiCommitGens Grp) : Decidable g.wf1 := by
  unfold MultiCommitGens.wf1; infer_instance

/-- commitments.rs: the multi-scalar multiplication over the generator list. -/
def msmList (v : List F) (Gs : List Grp) : Grp :=
  (List.zipWith (fun x g => x • g) v Gs).sum

/-- The first generator G[0] of a generator set. -/
def gfirst (g : MultiCommitGens Grp) : Grp := g.G.headD 0

/-- The value of a scalar Pedersen commitment x.commit(blind, gens). -/
def commitSVal (x r : F) (g : MultiCommitGens Grp) : Grp :=
  x • gfirst g + r • g.h

/-- commitments.rs: Commitments::commit for a scalar; asserts gens.n = 1 and
indexes G[0] (a panic when the generator list is empty). -/
def commitScalar (x r : F) (g : MultiCommitGens Grp) : Option Grp := do
  let _ ← passert (g.n = 1)
  let g0 ← g.G.head?
  some (x • g0 + r • g.h)

/-- The value of a vector Pedersen commitment v.commit(blind, gens). -/
def commitVVal (v : List F) (r : F) (g : MultiCommitGens Grp) : Grp :=
  msmList v g.G + r • g.h

/-- commitments.rs: Commitments::commit for a vector; asserts
gens.n = v.len(), then a multi-scalar multiplication including the blind. -/
def commitVec (v : List F) (r : F) (g : MultiCommitGens Grp) : Option Grp := do
  let _ ← passert (g.n = v.length)
  some (commitVVal v r g)

/-- The dot product of two scalar lists. -/
def dotF (a b : List F) : F := (List.zipWith (fun x y => x * y) a b).sum

/-- nizk: compute_dotproduct asserts the two lengths agree. -/
def compute_dotproduct (a b : List F) : Option F := do
  let _ ← passert (a.length = b.length)
  some (dotF a b)

/-- nizk/mod.rs: KnowledgeProof. -/
structure KnowledgeProof (F Grp : Type) where
  alpha : Grp
  z1 : F
  z2 : F
deriving DecidableEq

/-- nizk/mod.rs: KnowledgeProof::prove. -/
def KnowledgeProof.prove (rho : Tr F Grp → String → F) (gens_n : MultiCommitGens Grp)
    (t : Tr F Grp) (tape : RandomTape F Grp) (x r : F) :
    Option (KnowledgeProof F Grp × Grp × Tr F Grp × RandomTape F Grp) := do
  let t := appendMessage "protocol-name" "knowledge proof" t
  let p1 := RandomTape.random_scalar rho "t1" tape
  let t1 := p1.1
  let p2 := RandomTape.random_scalar rho "t2" p1.2
  let t2 := p2.1
  let tape := p2.2
  let C ← commitScalar x r gens_n
  let t := appendPoint "C" C t
  let alpha ← commitScalar t1 t2 gens_n
  let t := appendPoint "alpha" alpha t
  let pc := challengeScalar rho "c" t
  let c := pc.1
  let t := pc.2
  let z1 := x * c + t1
  let z2 := r * c + t2
  some ({ alpha := alpha, z1 := z1, z2 := z2 }, C, t, tape)

/-- nizk/mod.rs: KnowledgeProof::verify. -/
def KnowledgeProof.verify (rho : Tr F Grp → String → F) (gens_n : MultiCommitGens Grp)
    (pf : KnowledgeProof F Grp) (t : Tr F Grp) (C : Grp) :
    OE ProofVerifyError (Tr F Grp) := do
  let t := appendMessage "protocol-name" "knowledge proof" t
  let t := appendPoint "C" C t
  let t := appendPoint "alpha" pf.alpha t
  let pc := challengeScalar rho "c" t
  let c := pc.1
  let t := pc.2
  let lhs ← OE.lift (commitScalar pf.z1 pf.z2 gens_n)
  let rhs := c • C + pf.alpha
  let _ ← vcheck (lhs = rhs)
  pure t

/-- nizk/mod.rs: EqualityProof. -/
structure EqualityProof (F Grp : Type) where
  alpha : Grp
  z : F
deriving DecidableEq

/-- nizk/mod.rs: EqualityProof::prove. -/
def EqualityProof.prove (rho : Tr F Grp → String → F) (gens_n : MultiCommitGens Grp)
    (t : Tr F Grp) (tape : RandomTape F Grp) (v1 s1 v2 s2 : F) :
    Option (EqualityProof F Grp × Grp × Grp × Tr F Grp × RandomTape F Grp) := do
  let t := appendMessage "protocol-name" "equality proof" t
  let pr := RandomTape.random_scalar rho "r" tape
  let r := pr.1
  let tape := pr.2
  let C1 ← commitScalar v1 s1 gens_n
  let t := appendPoint "C1" C1 t
  let C2 ← commitScalar v2 s2 gens_n
  let t := appendPoint "C2" C2 t
  let alpha := r • gens_n.h
  let t := appendPoint "alpha" alpha t
  let pc := challengeScalar rho "c" t
  let c := pc.1
  let t := pc.2
  let z := c * (s1 - s2) + r
  some ({ alpha := alpha, z := z }, C1, C2, t, tape)

/-- nizk/mod.rs: EqualityProof::verify. -/
def EqualityProof.verify (rho : Tr F Grp → String → F) (gens_n : MultiCommitGens Grp)
    (pf : EqualityProof F Grp) (t : Tr F Grp) (C1 C2 : Grp) :
    OE ProofVerifyError (Tr F Grp) := do
  let t := appendMessage "protocol-name" "equality proof" t
  let t := appendPoint "C1" C1 t
  let t := appendPoint "C2" C2 t
  let t := appendPoint "alpha" pf.alpha t
  let pc := challengeScalar rho "c" t
  let c := pc.1
  let t := pc.2
  let rhs := c • (C1 - C2) + pf.alpha
  let lhs := pf.z • gens_n.h
  let _ ← vcheck (lhs = rhs)
  pure t

/-- nizk/mod.rs: ProductProof; the z array has five entries. -/
structure ProductProof (F Grp : Type) where
  alpha : Grp
  beta : Grp
  delta : Grp
  z : F × F × F × F × F
deriving DecidableEq

/-- nizk/mod.rs: ProductProof::prove. -/
def ProductProof.prove (rho : Tr F Grp → String → F) (gens_n : MultiCommitGens Grp)
    (t : Tr F Grp) (tape : RandomTape F Grp) (x rX y rY z rZ : F) :
    Option (ProductProof F Grp × Grp × Grp × Grp × Tr F Grp × RandomTape F Grp) := do
  let t := appendMessage "protocol-name" "product proof" t
  let p1 := RandomTape.random_scalar rho "b1" tape
  let b1 := p1.1
  let p2 := RandomTape.random_scalar rho "b2" p1.2
  let b2 := p2.1
  let p3 := RandomTape.random_scalar rho "b3" p2.2
  let b3 := p3.1
  let p4 := RandomTape.random_scalar rho "b4" p3.2
  let b4 := p4.1
  let p5 := RandomTape.random_scalar rho "b5" p4.2
  let b5 := p5.1
  let tape := p5.2
  let X ← commitScalar x rX gens_n
  let t := appendPoint "X" X t
  let Y ← commitScalar y rY gens_n
  let t := appendPoint "Y" Y t
  let Z ← commitScalar z rZ gens_n
  let t := appendPoint "Z" Z t
  let alpha ← commitScalar b1 b2 gens_n
  let t := appendPoint "alpha" alpha t
  let beta ← commitScalar b3 b4 gens_n
  let t := appendPoint "beta" beta t
  let delta ← commitScalar b3 b5 { n := 1, G := [X], h := gens_n.h }
  let t := appendPoint "delta" delta t
  let pc := challengeScalar rho "c" t
  let c := pc.1
  let t := pc.2
  let z1 := b1 + c * x
  let z2 := b2 + c * rX
  let z3 := b3 + c * y
  let z4 := b4 + c * rY
  let z5 := b5 + c * (rZ - rX * y)
  some ({ alpha := alpha, beta := beta, delta := delta, z := (z1, z2, z3, z4, z5) },
        X, Y, Z, t, tape)

/-- nizk/mod.rs: ProductProof::check_equality; the scalar commit inside can
panic when the generator set is malformed. -/
def ProductProof.check_equality (P X : Grp) (c : F) (gens_n : MultiCommitGens Grp)
    (z1 z2 : F) : Option Bool := do
  let rhs ← commitScalar z1 z2 gens_n
  some (P + c • X = rhs)

/-- nizk/mod.rs: ProductProof::verify; three checks combined by
short-circuiting conjunction. -/
def ProductProof.verify (rho : Tr F Grp → String → F) (gens_n : MultiCommitGens Grp)
    (pf : ProductProof F Grp) (t : Tr F Grp) (X Y Z : Grp) :
    OE ProofVerifyError (Tr F Grp) := do
  let t := appendMessage "protocol-name" "product proof" t
  let t := appendPoint "X" X t
  let t := appendPoint "Y" Y t
  let t := appendPoint "Z" Z t
  let t := appendPoint "alpha" pf.alpha t
  let t := appendPoint "beta" pf.beta t
  let t := appendPoint "delta" pf.delta t
  let z1 := pf.z.1
  let z2 := pf.z.2.1
  let z3 := pf.z.2.2.1
  let z4 := pf.z.2.2.2.1
  let z5 := pf.z.2.2.2.2
  let pc := challengeScalar rho "c" t
  let c := pc.1
  let t := pc.2
  let b1 ← OE.lift (ProductProof.check_equality pf.alpha X c gens_n z1 z2)
  if b1 then do
    let b2 ← OE.lift (ProductProof.check_equality pf.beta Y c gens_n z3 z4)
    if b2 then do
      let b3 ← OE.lift (ProductProof.check_equality pf.delta Z c
        { n := 1, G := [X], h := gens_n.h } z3 z5)
      if b3 then pure t
      else some (Except.error ProofVerifyError.internalError)
    else some (Except.error ProofVerifyError.internalError)
  else some (Except.error ProofVerifyError.internalError)

/-- nizk/mod.rs: DotProductProof (the linear-size variant). -/
structure DotProductProof (F Grp : Type) where
  delta : Grp
  beta : Grp
  z : List F
  z_delta : F
  z_beta : F
deriving DecidableEq

/-- nizk/mod.rs: DotProductProof::prove. -/
def DotProductProof.prove (rho : Tr F Grp → String → F)
    (gens_1 gens_n : MultiCommitGens Grp)
    (t : Tr F Grp) (tape : RandomTape F Grp)
    (x_vec : List F) (blind_x : F) (a_vec : List F) (y : F) (blind_y : F) :
    Option (DotProductProof F Grp × Grp × Grp × Tr F Grp × RandomTape F Grp) := do
  let t := appendMessage "protocol-name" "dot product proof" t
  let n := x_vec.length
  let _ ← passert (x_vec.length = a_vec.length)
  let _ ← passert (gens_n.n = a_vec.length)
  let _ ← passert (gens_1.n = 1)
  let pd := RandomTape.random_vector rho "d_vec" n tape
  let d_vec := pd.1
  let p1 := RandomTape.random_scalar rho "r_delta" pd.2
  let r_delta := p1.1
  let p2 := RandomTape.random_scalar rho "r_beta" p1.2
  let r_beta := p2.1
  let tape := p2.2
  let Cx ← commitVec x_vec blind_x gens_n
  let t := appendPoint "Cx" Cx t
  let Cy ← commitScalar y blind_y gens_1
  let t := appendPoint "Cy" Cy t
  let t := appendScalarList "a" a_vec t
  let delta ← commitVec d_vec r_delta gens_n
  let t := appendPoint "delta" delta t
  let dotproduct_a_d ← compute_dotproduct a_vec d_vec
  let beta ← commitScalar dotproduct_a_d r_beta gens_1
  let t := appendPoint "beta" beta t
  let pc := challengeScalar rho "c" t
  let c := pc.1
  let t := pc.2
  let z := List.zipWith (fun xi di => c * xi + di) x_vec d_vec
  let z_delta := c * blind_x + r_delta
  let z_beta := c * blind_y + r_beta
  some ({ delta := delta, beta := beta, z := z, z_delta := z_delta, z_beta := z_beta },
        Cx, Cy, t, tape)

/-- nizk/mod.rs: DotProductProof::verify.  The two boolean checks are combined
with a non-short-circuiting and-assignment, so both sides are evaluated. -/
def DotProductProof.verify (rho : Tr F Grp → String → F)
    (gens_1 gens_n : MultiCommitGens Grp)
    (pf : DotProductProof F Grp) (t : Tr F Grp)
    (a : List F) (Cx Cy : Grp) :
    OE ProofVerifyError (Tr F Grp) := do
  let _ ← vassert (gens_n.n = a.length)
  let _ ← vassert (gens_1.n = 1)
  let t := appendMessage "protocol-name" "dot product proof" t
  let t := appendPoint "Cx" Cx t
  let t := appendPoint "Cy" Cy t
  let t := appendScalarList "a" a t
  let t := appendPoint "delta" pf.delta t
  let t := appendPoint "beta" pf.beta t
  let pc := challengeScalar rho "c" t
  let c := pc.1
  let t := pc.2
  let commz ← OE.lift (commitVec pf.z pf.z_delta gens_n)
  let b1 := c • Cx + pf.delta = commz
  let dotproduct_z_a ← OE.lift (compute_dotproduct pf.z a)
  let commd ← OE.lift (commitScalar dotproduct_z_a pf.z_beta gens_1)
  let b2 := c • Cy + pf.beta = commd
  let _ ← vcheck (b1 ∧ b2)
  pure t

/-- nizk/bullet.rs is not part of the sources; Modelled from the spec (4.4):
the proof object of the Bullet reduction carries the per-round L and R
points. -/
structure BulletReductionProof (Grp : Type) where
  L_vec : List Grp
  R_vec : List Grp
deriving DecidableEq

/-- Modelled from the spec (4.4): the Bullet reduction prover.  k is the
number of halving rounds (log2 of the vector length); each round splits the
secret vector, the public vector and the generators, commits the cross terms
L and R with the per-round blinding pair, absorbs them, squeezes the round
challenge u, and folds; after k rounds the vectors have length one.  Returns
the L and R trails, the folded scalars x_hat and a_hat, the folded generator
g_hat and the folded blind. -/
def bullet_prove (rho : Tr F Grp → String → F) (k : Nat) (Q : Grp)
    (Gs : List Grp) (hb : Grp) (x a : List F) (blind : F)
    (blinds : List (F × F)) (t : Tr F Grp) :
    Option (List Grp × List Grp × F × F × Grp × F × Tr F Grp) :=
  match k with
  | 0 => some ([], [], x.headD 0, a.headD 0, Gs.headD 0, blind, t)
  | Nat.succ k => do
    let half := 2 ^ k
    let xL := x.take half
    let xR := x.drop half
    let aL := a.take half
    let aR := a.drop half
    let gL := Gs.take half
    let gR := Gs.drop half
    let sLR := blinds.headD (0, 0)
    let cL := dotF xL aR
    let cR := dotF xR aL
    let L := msmList xL gR + cL • Q + sLR.1 • hb
    let R := msmList xR gL + cR • Q + sLR.2 • hb
    let t := appendPoint "L" L t
    let t := appendPoint "R" R t
    let pu := challengeScalar rho "u" t
    let u := pu.1
    let t := pu.2
    let x1 := List.zipWith (fun p q => u * p + u⁻¹ * q) xL xR
    let a1 := List.zipWith (fun p q => u⁻¹ * p + u * q) aL aR
    let g1 := List.zipWith (fun p q : Grp => u⁻¹ • p + u • q) gL gR
    let blind1 := blind + (u * u) * sLR.1 + (u⁻¹ * u⁻¹) * sLR.2
    let rec_ ← bullet_prove rho k Q g1 hb x1 a1 blind1 blinds.tail t
    some (L :: rec_.1, R :: rec_.2.1, rec_.2.2)

/-- Modelled from the spec (4.4): the Bullet reduction verifier.  It replays
the L and R absorptions, squeezes each round challenge, aborts with
VerificationFailed on a zero challenge (re-squeezing is not permitted), folds
the public vector and the generators, and accumulates
Gamma_hat = Gamma + sum of u^2 L + u^-2 R; a trail whose length does not
match the round count is a verification failure. -/
def bullet_verify (rho : Tr F Grp → String → F) (k : Nat)
    (Ls Rs : List Grp) (a : List F) (Gs : List Grp) (Gamma : Grp) (t : Tr F Grp) :
    OE ProofVerifyError (Grp × Grp × F × Tr F Grp) :=
  match k with
  | 0 =>
    match Ls, Rs with
    | [], [] => pure (Gs.headD 0, Gamma, a.headD 0, t)
    | _, _ => some (Except.error ProofVerifyError.internalError)
  | Nat.succ k =>
    match Ls, Rs with
    | L :: Ls, R :: Rs => do
      let half := 2 ^ k
      let aL := a.take half
      let aR := a.drop half
      let gL := Gs.take half
      let gR := Gs.drop half
      let t := appendPoint "L" L t
      let t := appendPoint "R" R t
      let pu := challengeScalar rho "u" t
      let u := pu.1
      let t := pu.2
      let _ ← vcheck (u ≠ 0)
      let a1 := List.zipWith (fun p q => u⁻¹ * p + u * q) aL aR
      let g1 := List.zipWith (fun p q : Grp => u⁻¹ • p + u • q) gL gR
      let Gamma1 := (u * u) • L + Gamma + (u⁻¹ * u⁻¹) • R
      bullet_verify rho k Ls Rs a1 g1 Gamma1 t
    | _, _ => some (Except.error ProofVerifyError.internalError)

/-- nizk/mod.rs: DotProductProofGens, derived from MultiCommitGens(n+1) via
split_at(n). -/
structure DotProductProofGens (Grp : Type) where
  n : Nat
  gens_n : MultiCommitGens Grp
  gens_1 : MultiCommitGens Grp

/-- nizk/mod.rs: DotProductProofGens::new. -/
def DotProductProofGens.new {Grp : Type} (gensOf : String → Nat → Grp)
    (n : Nat) (label : String) : Option (DotProductProofGens Grp) := do
  let p ← (MultiCommitGens.new gensOf (n + 1) label).split_at n
  some { n := n, gens_n := p.1, gens_1 := p.2 }

/-- nizk/mod.rs: DotProductProofLog. -/
structure DotProductProofLog (F Grp : Type) where
  bullet_reduction_proof : BulletReductionProof Grp
  delta : Grp
  beta : Grp
  z1 : F
  z2 : F
deriving DecidableEq

/-- nizk/mod.rs: DotProductProofLog::prove.  Note: the closing blind r_beta is
drawn from the random tape under the label "r_delta", the same label as
r_delta, exactly as in the source (line 450). -/
def DotProductProofLog.prove (rho : Tr F Grp → String → F)
    (gens : DotProductProofGens Grp)
    (t : Tr F Grp) (tape : RandomTape F Grp)
    (x_vec : List F) (blind_x : F) (a_vec : List F) (y : F) (blind_y : F) :
    Option (DotProductProofLog F Grp × Grp × Grp × Tr F Grp × RandomTape F Grp) := do
  let t := appendMessage "protocol-name" "dot product proof (log)" t
  let n := x_vec.length
  let _ ← passert (x_vec.length = a_vec.length)
  let _ ← passert (gens.n = n)
  let pd := RandomTape.random_scalar rho "d" tape
  let d := pd.1
  let p1 := RandomTape.random_scalar rho "r_delta" pd.2
  let r_delta := p1.1
  let p2 := RandomTape.random_scalar rho "r_delta" p1.2
  let r_beta := p2.1
  let pv1 := RandomTape.random_vector rho "blinds_vec_1" (2 * log_2 n) p2.2
  let pv2 := RandomTape.random_vector rho "blinds_vec_2" (2 * log_2 n) pv1.2
  let blinds_vec := List.zip pv1.1 pv2.1
  let tape := pv2.2
  let Cx ← commitVec x_vec blind_x gens.gens_n
  let t := appendPoint "Cx" Cx t
  let Cy ← commitScalar y blind_y gens.gens_1
  let t := appendPoint "Cy" Cy t
  let t := appendScalarList "a" a_vec t
  let blind_Gamma := blind_x + blind_y
  let Q ← gens.gens_1.G.head?
  let res ← bullet_prove rho (log_2 n) Q gens.gens_n.G gens.gens_n.h
    x_vec a_vec blind_Gamma blinds_vec t
  let x_hat := res.2.2.1
  let a_hat := res.2.2.2.1
  let g_hat := res.2.2.2.2.1
  let rhat_Gamma := res.2.2.2.2.2.1
  let t := res.2.2.2.2.2.2
  let y_hat := x_hat * a_hat
  let delta ← commitScalar d r_delta { n := 1, G := [g_hat], h := gens.gens_1.h }
  let t := appendPoint "delta" delta t
  let beta ← commitScalar d r_beta gens.gens_1
  let t := appendPoint "beta" beta t
  let pc := challengeScalar rho "c" t
  let c := pc.1
  let t := pc.2
  let z1 := d + c * y_hat
  let z2 := a_hat * (c * rhat_Gamma + r_beta) + r_delta
  some ({ bullet_reduction_proof := { L_vec := res.1, R_vec := res.2.1 },
          delta := delta, beta := beta, z1 := z1, z2 := z2 },
        Cx, Cy, t, tape)

/-- nizk/mod.rs: DotProductProofLog::verify.  After the Bullet replay and the
closing challenge it evaluates both sides of the closing equation, runs the
redundant assert_eq on them (a panic on inequality), and only then the
boolean check that produces the opaque error. -/
def DotProductProofLog.verify (rho : Tr F Grp → String → F) (n : Nat)
    (gens : DotProductProofGens Grp)
    (pf : DotProductProofLog F Grp) (t : Tr F Grp)
    (a : List F) (Cx Cy : Grp) :
    OE ProofVerifyError (Tr F Grp) := do
  let _ ← vassert (gens.n = n)
  let _ ← vassert (a.length = n)
  let t := appendMessage "protocol-name" "dot product proof (log)" t
  let t := appendPoint "Cx" Cx t
  let t := appendPoint "Cy" Cy t
  let t := appendScalarList "a" a t
  let Gamma := Cx + Cy
  let res ← bullet_verify rho (log_2 n) pf.bullet_reduction_proof.L_vec
    pf.bullet_reduction_proof.R_vec a gens.gens_n.G Gamma t
  let g_hat := res.1
  let Gamma_hat := res.2.1
  let a_hat := res.2.2.1
  let t := res.2.2.2
  let t := appendPoint "delta" pf.delta t
  let t := appendPoint "beta" pf.beta t
  let pc := challengeScalar rho "c" t
  let c := pc.1
  let t := pc.2
  let lhs := a_hat • (c • Gamma_hat + pf.beta) + pf.delta
  let g0 ← OE.lift gens.gens_1.G.head?
  let rhs := pf.z1 • (g_hat + a_hat • g0) + pf.z2 • gens.gens_1.h
  let _ ← vassert (lhs = rhs)
  let _ ← vcheck (lhs = rhs)
  pure t

/-- random.rs: ark_std::test_rng creates a PRNG from a hard-coded fixed seed;
its first scalar draw is therefore one fixed field element, independent of
any ambient entropy.  The model receives the ambient entropy as an argument
and, like the source, ignores it; the fixed first draw is the parameter
fixed_draw. -/
def test_rng_scalar (fixed_draw : F) (entropy : Nat) : F := fixed_draw

/-- random.rs: RandomTape::new(name): a fresh Merlin transcript domain
separated by the name, pre-seeded by absorbing one scalar drawn from
test_rng under the label init_randomness. -/
def RandomTape.new (fixed_draw : F) (entropy : Nat) (name : String) :
    RandomTape F Grp :=
  appendScalar "init_randomness" (test_rng_scalar fixed_draw entropy)
    (Transcript.new name)

/-- The stream of blinding scalars drawn from a tape under a list of labels
via RandomTape::random_scalar. -/
def tapeStream (rho : Tr F Grp → String → F) (labels : List String)
    (tape : RandomTape F Grp) : List F :=
  match labels with
  | [] => []
  | l :: ls =>
    let p := RandomTape.random_scalar rho l tape
    p.1 :: tapeStream rho ls p.2

/-- Modelled from the spec: binding the top (most significant) variable of an
evaluation table of length 2 * half to r, as DensePolynomial folding does
during sum-check rounds. -/
def foldTop (r : F) (T : Nat → F) (half : Nat) : Nat → F :=
  fun i => (1 - r) * T i + r * T (i + half)

/-- Modelled from the spec: the multilinear extension of an evaluation table
(as a function on indices below 2 to the point length) evaluated at a point,
binding variables from the top bit down, exactly the order in which the
sum-check rounds fold. -/
def evalML : List F → (Nat → F) → F
  | [], T => T 0
  | r :: rs, T => evalML rs (foldTop r T (2 ^ rs.length))

/-- Modelled from the spec: the Lagrange basis of the boolean hypercube
(the eq polynomial): chi p i is the product over the bits of i (top bit
first) of the matching factor of p. -/
def chi : List F → Nat → F
  | [], _ => 1
  | r :: rs, i => (if i < 2 ^ rs.length then 1 - r else r) * chi rs (i % 2 ^ rs.length)

/-- Modelled from the spec: a row of the sparse matrix-vector product, the
building block of R1CSInstance::multiply_vec. -/
def sparseMatVec (M : List (Nat × Nat × F)) (z : Nat → F) : Nat → F :=
  fun i => (M.map (fun e => if e.1 = i then e.2.2 * z e.2.1 else 0)).sum

/-- Modelled from the spec: one column of the evaluation table produced by
R1CSInstance::compute_eval_table_sparse, the weighted column sums of the
matrix with row weights e below the row bound m. -/
def sparseEvalTable (M : List (Nat × Nat × F)) (m : Nat) (e : Nat → F) : Nat → F :=
  fun j => (M.map (fun ent => if ent.2.1 = j ∧ ent.1 < m then e ent.1 * ent.2.2 else 0)).sum

/-- Modelled from the spec: the multilinear extension of a sparse matrix
evaluated at (rx, ry), as R1CSInstance::evaluate computes it. -/
def sparseMatEval (M : List (Nat × Nat × F)) (rx ry : List F) : F :=
  (M.map (fun ent => chi rx ent.1 * chi ry ent.2.1 * ent.2.2)).sum

/-- Modelled from the spec: SparsePolynomial::new(num_vars, entries)
.evaluate(point); entries are (index, coefficient) pairs. -/
def SparsePolynomial.evaluate (entries : List (Nat × F)) (point : List F) : F :=
  (entries.map (fun e => e.2 * chi point e.1)).sum

/-- Modelled from the spec: the R1CS instance container (r1csinstance.rs is
not among the sources); the three matrices are sparse entry lists
(row, column, value). -/
structure R1CSInstance (F : Type) where
  num_cons : Nat
  num_vars : Nat
  num_inputs : Nat
  A : List (Nat × Nat × F)
  B : List (Nat × Nat × F)
  C : List (Nat × Nat × F)

/-- Modelled from the spec: R1CSInstance::get_num_cons. -/
def R1CSInstance.get_num_cons (inst : R1CSInstance F) : Nat := inst.num_cons

/-- Modelled from the spec: R1CSInstance::get_num_vars. -/
def R1CSInstance.get_num_vars (inst : R1CSInstance F) : Nat := inst.num_vars

/-- Modelled from the spec: R1CSInstance::multiply_vec yields the three
tables Az, Bz, Cz. -/
def R1CSInstance.multiply_vec (inst : R1CSInstance F) (m n : Nat) (z : Nat → F) :
    (Nat → F) × (Nat → F) × (Nat → F) :=
  (sparseMatVec inst.A z, sparseMatVec inst.B z, sparseMatVec inst.C z)

/-- Modelled from the spec: R1CSInstance::compute_eval_table_sparse yields
three length-n tables of weighted column sums. -/
def R1CSInstance.compute_eval_table_sparse (inst : R1CSInstance F) (m n : Nat)
    (e : Nat → F) : (Nat → F) × (Nat → F) × (Nat → F) :=
  (sparseEvalTable inst.A m e, sparseEvalTable inst.B m e, sparseEvalTable inst.C m e)

/-- Modelled from the spec: R1CSInstance::evaluate yields the multilinear
extensions of the three matrices at (rx, ry). -/
def R1CSInstance.evaluate (inst : R1CSInstance F) (rx ry : List F) : F × F × F :=
  (sparseMatEval inst.A rx ry, sparseMatEval inst.B rx ry, sparseMatEval inst.C rx ry)

/-- r1csproof.rs: the padded assignment z = vars, 1, inputs, zero padding. -/
def zlist (vars input : List F) : List F :=
  vars ++ ((1 : F) :: (input ++ List.replicate (vars.length - input.length - 1) 0))

/-- The padded assignment as a total index function (out of range is zero). -/
def zfun (vars input : List F) : Nat → F := fun i => (zlist vars input).getD i 0

/-- Modelled from the spec: R1CSInstance::is_sat on (vars, input), using the
same padded z as the prover. -/
def R1CSInstance.is_sat (inst : R1CSInstance F) (vars input : List F) : Prop :=
  ∀ i < inst.num_cons,
    sparseMatVec inst.A (zfun vars input) i * sparseMatVec inst.B (zfun vars input) i
      = sparseMatVec inst.C (zfun vars input) i

/-- Well-formedness of an instance: all entries address rows below num_cons
and columns below 2 * num_vars. -/
def R1CSInstance.wf (inst : R1CSInstance F) : Prop :=
  ∀ e ∈ inst.A ++ inst.B ++ inst.C, e.1 < inst.num_cons ∧ e.2.1 < 2 * inst.num_vars

instance (inst : R1CSInstance F) (vars input : List F) :
    Decidable (inst.is_sat vars input) := by
  unfold R1CSInstance.is_sat; infer_instance

instance (inst : R1CSInstance F) : Decidable inst.wf := by
  unfold R1CSInstance.wf; infer_instance

/-- The canonical per-entry contribution of a sparse matrix to the joint
evaluation against weights chi p on rows and a vector z on columns. -/
def entryContrib (p : List F) (z : Nat → F) : Nat × Nat × F → F :=
  fun ent => chi p ent.1 * ent.2.2 * z ent.2.1

/-- The public weight vector proving g(0) + g(1) about committed round
polynomial coefficients: in coefficient basis the sum of evaluations at 0
and 1 is 2 c0 + c1 + ... + cd. -/
def a_sc_vec (d : Nat) : List F := (2 : F) :: List.replicate d 1

/-- The public weight vector evaluating a committed coefficient vector at r:
the powers of r. -/
def a_eval_vec (d : Nat) (r : F) : List F := (List.range (d + 1)).map (fun j => r ^ j)

/-- Modelled from the spec: the coefficients of the quadratic round
polynomial of the sum-check over two tables with product combination. -/
def quadCoeffs (T U : Nat → F) (half : Nat) : List F :=
  [∑ i ∈ Finset.range half, T i * U i,
   ∑ i ∈ Finset.range half,
     (T i * (U (i + half) - U i) + U i * (T (i + half) - T i)),
   ∑ i ∈ Finset.range half, (T (i + half) - T i) * (U (i + half) - U i)]

/-- Modelled from the spec: the coefficients of the cubic round polynomial
of the sum-check over four tables with combination a * (b * c - d). -/
def cubicCoeffs (A B C D : Nat → F) (half : Nat) : List F :=
  [∑ i ∈ Finset.range half, A i * (B i * C i - D i),
   ∑ i ∈ Finset.range half,
     (A i * (B i * (C (i + half) - C i) + C i * (B (i + half) - B i)
         - (D (i + half) - D i))
       + (A (i + half) - A i) * (B i * C i - D i)),
   ∑ i ∈ Finset.range half,
     (A i * ((B (i + half) - B i) * (C (i + half) - C i))
       + (A (i + half) - A i) * (B i * (C (i + half) - C i)
           + C i * (B (i + half) - B i) - (D (i + half) - D i))),
   ∑ i ∈ Finset.range half,
     (A (i + half) - A i) * ((B (i + half) - B i) * (C (i + half) - C i))]

/-- Modelled from the spec (4.6): the data of one zero-knowledge sum-check
round: the commitment to the round polynomial coefficients under the
length-(d+1) generators, the commitment to its evaluation at the round
challenge (the next claim) under the length-1 generators, and the linear
dot-product proof tying them to the current claim. -/
structure SCRound (F Grp : Type) where
  comm_poly : Grp
  comm_eval : Grp
  dp : DotProductProof F Grp
deriving DecidableEq

/-- Modelled from the spec (4.6): one round of the zero-knowledge sum-check
prover.  It commits to the round polynomial coefficients with a fresh blind,
absorbs the commitment, squeezes the round challenge, commits to the
evaluation of the round polynomial at the challenge (the next claim) with a
fresh blind, absorbs the current claim commitment and the evaluation
commitment, squeezes two combining weights, and proves with the linear
DotProductProof that the committed coefficients satisfy both the
g(0) + g(1) = claim check (weights 2, 1, ..., 1 in coefficient basis) and
the evaluation check (weights the powers of the challenge), combined into a
single random linear combination. -/
def sc_round_prove (rho : Tr F Grp → String → F) (gens_1 gens_m : MultiCommitGens Grp)
    (d : Nat) (coeffs : List F) (claim blind : F)
    (t : Tr F Grp) (tape : RandomTape F Grp) :
    Option (SCRound F Grp × F × F × F × Tr F Grp × RandomTape F Grp) := do
  let pb := RandomTape.random_scalar rho "blind_poly" tape
  let pe := RandomTape.random_scalar rho "blind_eval" pb.2
  let tape := pe.2
  let comm_poly ← commitVec coeffs pb.1 gens_m
  let t := appendPoint "comm_poly" comm_poly t
  let pr := challengeScalar rho "challenge_nextround" t
  let t := pr.2
  let eval := dotF coeffs (a_eval_vec d pr.1)
  let comm_claim ← commitScalar claim blind gens_1
  let comm_eval ← commitScalar eval pe.1 gens_1
  let t := appendPoint "comm_claim_per_round" comm_claim t
  let t := appendPoint "comm_eval" comm_eval t
  let pw := challengeVector rho "combine_two_claims_to_one" 2 t
  let t := pw.2
  let w0 := pw.1.getD 0 0
  let w1 := pw.1.getD 1 0
  let a_vec := List.zipWith (fun p q => w0 * p + w1 * q) (a_sc_vec d) (a_eval_vec d pr.1)
  let yv := w0 * claim + w1 * eval
  let blind_y := w0 * blind + w1 * pe.1
  let pdp ← DotProductProof.prove rho gens_1 gens_m t tape coeffs pb.1 a_vec yv blind_y
  some (SCRound.mk comm_poly comm_eval pdp.1, pr.1, eval, pe.1, pdp.2.2.2.1, pdp.2.2.2.2)

/-- Modelled from the spec (4.6): one round of the zero-knowledge sum-check
verifier, tracking the current claim commitment.  It replays the absorbs,
squeezes the round challenge and the combining weights, forms the combined
target commitment homomorphically, and checks the round dot-product proof
against the committed coefficients. -/
def sc_round_verify (rho : Tr F Grp → String → F) (d : Nat)
    (gens_1 gens_m : MultiCommitGens Grp) (comm_claim : Grp)
    (rd : SCRound F Grp) (t : Tr F Grp) : OE ProofVerifyError (F × Tr F Grp) := do
  let t := appendPoint "comm_poly" rd.comm_poly t
  let pr := challengeScalar rho "challenge_nextround" t
  let t := pr.2
  let t := appendPoint "comm_claim_per_round" comm_claim t
  let t := appendPoint "comm_eval" rd.comm_eval t
  let pw := challengeVector rho "combine_two_claims_to_one" 2 t
  let t := pw.2
  let w0 := pw.1.getD 0 0
  let w1 := pw.1.getD 1 0
  let a_vec := List.zipWith (fun p q => w0 * p + w1 * q) (a_sc_vec d) (a_eval_vec d pr.1)
  let target := w0 • comm_claim + w1 • rd.comm_eval
  let t ← DotProductProof.verify rho gens_1 gens_m rd.dp t a_vec rd.comm_poly target
  pure (pr.1, t)

/-- Modelled from the spec (4.6): the zero-knowledge sum-check proof object
is the list of round data. -/
structure ZKSumcheckInstanceProof (F Grp : Type) where
  rounds : List (SCRound F Grp)
deriving DecidableEq

/-- Modelled from the spec (4.6): ZKSumcheckInstanceProof::prove_quad, over
two tables with product combination.  Returns the proof, the challenge
point, the two final table entries, the final blind, and the updated
transcript and tape. -/
def prove_quad (rho : Tr F Grp → String → F) (gens_1 gens_3 : MultiCommitGens Grp)
    (claim blind : F) (num_rounds : Nat) (T U : Nat → F)
    (t : Tr F Grp) (tape : RandomTape F Grp) :
    Option (ZKSumcheckInstanceProof F Grp × List F × (F × F) × F
      × Tr F Grp × RandomTape F Grp) :=
  match num_rounds with
  | 0 => some (ZKSumcheckInstanceProof.mk [], [], (T 0, U 0), blind, t, tape)
  | Nat.succ nr => do
    let prd ← sc_round_prove rho gens_1 gens_3 2 (quadCoeffs T U (2 ^ nr))
      claim blind t tape
    let rest ← prove_quad rho gens_1 gens_3 prd.2.2.1 prd.2.2.2.1 nr
      (foldTop prd.2.1 T (2 ^ nr)) (foldTop prd.2.1 U (2 ^ nr))
      prd.2.2.2.2.1 prd.2.2.2.2.2
    some (ZKSumcheckInstanceProof.mk (prd.1 :: rest.1.rounds), prd.2.1 :: rest.2.1,
      rest.2.2)

/-- Modelled from the spec (4.6): ZKSumcheckInstanceProof::
prove_cubic_with_additive_term, over four tables with combination
a * (b * c - d).  Returns the proof, the challenge point, the four final
table entries, the final blind, and the updated transcript and tape. -/
def prove_cubic_with_additive_term (rho : Tr F Grp → String → F)
    (gens_1 gens_4 : MultiCommitGens Grp)
    (claim blind : F) (num_rounds : Nat) (A B C D : Nat → F)
    (t : Tr F Grp) (tape : RandomTape F Grp) :
    Option (ZKSumcheckInstanceProof F Grp × List F × (F × F × F × F) × F
      × Tr F Grp × RandomTape F Grp) :=
  match num_rounds with
  | 0 => some (ZKSumcheckInstanceProof.mk [], [], (A 0, B 0, C 0, D 0), blind, t, tape)
  | Nat.succ nr => do
    let prd ← sc_round_prove rho gens_1 gens_4 3 (cubicCoeffs A B C D (2 ^ nr))
      claim blind t tape
    let rest ← prove_cubic_with_additive_term rho gens_1 gens_4 prd.2.2.1 prd.2.2.2.1 nr
      (foldTop prd.2.1 A (2 ^ nr)) (foldTop prd.2.1 B (2 ^ nr))
      (foldTop prd.2.1 C (2 ^ nr)) (foldTop prd.2.1 D (2 ^ nr))
      prd.2.2.2.2.1 prd.2.2.2.2.2
    some (ZKSumcheckInstanceProof.mk (prd.1 :: rest.1.rounds), prd.2.1 :: rest.2.1,
      rest.2.2)

/-- Modelled from the spec (4.6): the round recursion of
ZKSumcheckInstanceProof::verify, tracking the claim commitment; a trail
whose length does not match the round count is a verification failure. -/
def verify_sc_rounds (rho : Tr F Grp → String → F) (d : Nat)
    (gens_1 gens_m : MultiCommitGens Grp) :
    Nat → List (SCRound F Grp) → Grp → Tr F Grp → OE ProofVerifyError (Grp × List F × Tr F Grp)
  | 0, [], comm_claim, t => pure (comm_claim, [], t)
  | 0, _ :: _, _, _ => some (Except.error ProofVerifyError.internalError)
  | Nat.succ _, [], _, _ => some (Except.error ProofVerifyError.internalError)
  | Nat.succ nr, rd :: rest, comm_claim, t => do
    let pr ← sc_round_verify rho d gens_1 gens_m comm_claim rd t
    let res ← verify_sc_rounds rho d gens_1 gens_m nr rest rd.comm_eval pr.2
    pure (res.1, pr.1 :: res.2.1, res.2.2)

/-- Modelled from the spec (4.6): ZKSumcheckInstanceProof::verify.  Returns
the final claim commitment and the challenge point. -/
def ZKSumcheckInstanceProof.verify (pf : ZKSumcheckInstanceProof F Grp)
    (rho : Tr F Grp → String → F) (comm_claim : Grp) (num_rounds d : Nat)
    (gens_1 gens_m : MultiCommitGens Grp) (t : Tr F Grp) :
    OE ProofVerifyError (Grp × List F × Tr F Grp) :=
  verify_sc_rounds rho d gens_1 gens_m num_rounds pf.rounds comm_claim t

/-- r1csproof.rs: R1CSSumcheckGens, the sum-check generator bundle. -/
structure R1CSSumcheckGens (Grp : Type) where
  gens_1 : MultiCommitGens Grp
  gens_3 : MultiCommitGens Grp
  gens_4 : MultiCommitGens Grp

/-- r1csproof.rs: R1CSSumcheckGens::new clones the passed length-1 reference
and derives the length-3 and length-4 sets from the label. -/
def R1CSSumcheckGens.new (gensOf : String → Nat → Grp) (label : String)
    (gens_1_ref : MultiCommitGens Grp) : R1CSSumcheckGens Grp :=
  { gens_1 := gens_1_ref,
    gens_3 := MultiCommitGens.new gensOf 3 label,
    gens_4 := MultiCommitGens.new gensOf 4 label }

/-- Modelled from the spec (6): the generators of the external polynomial
commitment, a dot-product generator bundle sized to the coefficient table. -/
structure PolyCommitmentGens (Grp : Type) where
  gens : DotProductProofGens Grp

/-- Modelled from the spec (6): PolyCommitmentGens::new(num_vars, label);
the model commits to the full table of size 2 to num_vars at once. -/
def PolyCommitmentGens.new (gensOf : String → Nat → Grp)
    (num_poly_vars : Nat) (label : String) : Option (PolyCommitmentGens Grp) := do
  let g ← DotProductProofGens.new gensOf (2 ^ num_poly_vars) label
  some { gens := g }

/-- r1csproof.rs: R1CSGens bundles the sum-check and polynomial-commitment
generators. -/
structure R1CSGens (Grp : Type) where
  gens_sc : R1CSSumcheckGens Grp
  gens_pc : PolyCommitmentGens Grp

/-- r1csproof.rs: R1CSGens::new derives the polynomial-commitment generators
from the label and passes a reference to their length-1 set into
R1CSSumcheckGens::new. -/
def R1CSGens.new (gensOf : String → Nat → Grp) (label : String)
    (num_cons num_vars : Nat) : Option (R1CSGens Grp) := do
  let num_poly_vars := log_2 num_vars
  let gens_pc ← PolyCommitmentGens.new gensOf num_poly_vars label
  let gens_sc := R1CSSumcheckGens.new gensOf label gens_pc.gens.gens_1
  some { gens_sc := gens_sc, gens_pc := gens_pc }

/-- Modelled from the spec (6): DensePolynomial::commit draws a blind from
the tape and commits to the coefficient table as a Pedersen vector
commitment; returns the commitment, the blind, and the updated tape. -/
def DensePolynomial.commit (rho : Tr F Grp → String → F)
    (gens_pc : PolyCommitmentGens Grp) (poly : List F) (tape : RandomTape F Grp) :
    Option (Grp × F × RandomTape F Grp) := do
  let pb := RandomTape.random_scalar rho "poly_blinds" tape
  let comm ← commitVec poly pb.1 gens_pc.gens.gens_n
  some (comm, pb.1, pb.2)

/-- Modelled from the spec (6): DensePolynomial::evaluate at a point. -/
def DensePolynomial.evaluate (poly : List F) (point : List F) : F :=
  evalML point (fun i => poly.getD i 0)

/-- Modelled from the spec (6): the external polynomial evaluation proof; the
model is the perfectly binding idealization in which the proof opens the
commitment, so the verifier literally recomputes the committed evaluation. -/
structure PolyEvalProof (F Grp : Type) where
  poly : List F
  blind_poly : F
  blind_eval : F
deriving DecidableEq

/-- Modelled from the spec (6): PolyEvalProof::prove emits the opening and the
commitment to the claimed value under the length-1 generators. -/
def PolyEvalProof.prove (rho : Tr F Grp → String → F)
    (gens_pc : PolyCommitmentGens Grp) (t : Tr F Grp) (tape : RandomTape F Grp)
    (poly : List F) (blind_poly : F) (point : List F) (value blind_eval : F) :
    Option (PolyEvalProof F Grp × Grp × Tr F Grp × RandomTape F Grp) := do
  let t := appendMessage "protocol-name" "polynomial evaluation proof" t
  let comm_value ← commitScalar value blind_eval gens_pc.gens.gens_1
  let t := appendPoint "comm_value" comm_value t
  some (PolyEvalProof.mk poly blind_poly blind_eval, comm_value, t, tape)

/-- Modelled from the spec (6): PolyEvalProof::verify checks the opening
against the polynomial commitment and checks that the value commitment
commits to the evaluation of the opened polynomial at the point. -/
def PolyEvalProof.verify (rho : Tr F Grp → String → F)
    (gens_pc : PolyCommitmentGens Grp) (pf : PolyEvalProof F Grp) (t : Tr F Grp)
    (point : List F) (comm_value comm_poly : Grp) :
    OE ProofVerifyError (Tr F Grp) := do
  let t := appendMessage "protocol-name" "polynomial evaluation proof" t
  let cp ← OE.lift (commitVec pf.poly pf.blind_poly gens_pc.gens.gens_n)
  let _ ← vcheck (comm_poly = cp)
  let cv ← OE.lift (commitScalar (DensePolynomial.evaluate pf.poly point)
    pf.blind_eval gens_pc.gens.gens_1)
  let _ ← vcheck (comm_value = cv)
  let t := appendPoint "comm_value" comm_value t
  pure t

/-- r1csproof.rs: the product the verifier forms from rx and tau; indexing
tau[i] for i below rx.len() panics when rx is longer than tau. -/
def taus_bound_prod (rx tau : List F) : Option F :=
  if rx.length ≤ tau.length then
    some ((List.zipWith (fun r ti => r * ti + (1 - r) * (1 - ti)) rx tau).prod)
  else none

/-- r1csproof.rs: R1CSProof. -/
structure R1CSProof (F Grp : Type) where
  comm_vars : Grp
  sc_proof_phase1 : ZKSumcheckInstanceProof F Grp
  claims_phase2 : Grp × Grp × Grp × Grp
  pok_claims_phase2 : KnowledgeProof F Grp × ProductProof F Grp
  proof_eq_sc_phase1 : EqualityProof F Grp
  sc_proof_phase2 : ZKSumcheckInstanceProof F Grp
  comm_vars_at_ry : Grp
  proof_eval_vars_at_ry : PolyEvalProof F Grp
  proof_eq_sc_phase2 : EqualityProof F Grp

/-- r1csproof.rs: R1CSProof::prove.  The length assertion is exactly
input.len() < vars.len() as in the source (line 165). -/
def R1CSProof.prove (rho : Tr F Grp → String → F) (inst : R1CSInstance F)
    (vars input : List F) (gens : R1CSGens Grp)
    (t : Tr F Grp) (tape : RandomTape F Grp) :
    Option (R1CSProof F Grp × List F × List F × Tr F Grp × RandomTape F Grp) := do
  let t := appendMessage "protocol-name" "R1CS proof" t
  let _ ← passert (input.length < vars.length)
  let t := appendScalarList "input" input t
  let pcm ← DensePolynomial.commit rho gens.gens_pc vars tape
  let comm_vars := pcm.1
  let blinds_vars := pcm.2.1
  let tape := pcm.2.2
  let t := appendPoint "poly_commitment" comm_vars t
  let z := zfun vars input
  let num_rounds_x := log_2 inst.get_num_cons
  let num_rounds_y := log_2 (zlist vars input).length
  let ptau := challengeVector rho "challenge_tau" num_rounds_x t
  let tau := ptau.1
  let t := ptau.2
  let mv := inst.multiply_vec inst.get_num_cons (zlist vars input).length z
  let p1 ← prove_cubic_with_additive_term rho gens.gens_sc.gens_1 gens.gens_sc.gens_4
    0 0 num_rounds_x (chi tau) mv.1 mv.2.1 mv.2.2 t tape
  let sc_proof_phase1 := p1.1
  let rx := p1.2.1
  let tau_claim := p1.2.2.1.1
  let Az_claim := p1.2.2.1.2.1
  let Bz_claim := p1.2.2.1.2.2.1
  let Cz_claim := p1.2.2.1.2.2.2
  let blind_claim_postsc1 := p1.2.2.2.1
  let t := p1.2.2.2.2.1
  let tape := p1.2.2.2.2.2
  let pAb := RandomTape.random_scalar rho "Az_blind" tape
  let Az_blind := pAb.1
  let pBb := RandomTape.random_scalar rho "Bz_blind" pAb.2
  let Bz_blind := pBb.1
  let pCb := RandomTape.random_scalar rho "Cz_blind" pBb.2
  let Cz_blind := pCb.1
  let pPb := RandomTape.random_scalar rho "prod_Az_Bz_blind" pCb.2
  let prod_Az_Bz_blind := pPb.1
  let tape := pPb.2
  let pok ← KnowledgeProof.prove rho gens.gens_sc.gens_1 t tape Cz_claim Cz_blind
  let pok_Cz_claim := pok.1
  let comm_Cz_claim := pok.2.1
  let t := pok.2.2.1
  let tape := pok.2.2.2
  let pp ← ProductProof.prove rho gens.gens_sc.gens_1 t tape Az_claim Az_blind
    Bz_claim Bz_blind (Az_claim * Bz_claim) prod_Az_Bz_blind
  let proof_prod := pp.1
  let comm_Az_claim := pp.2.1
  let comm_Bz_claim := pp.2.2.1
  let comm_prod_Az_Bz_claims := pp.2.2.2.1
  let t := pp.2.2.2.2.1
  let tape := pp.2.2.2.2.2
  let t := appendPoint "comm_Az_claim" comm_Az_claim t
  let t := appendPoint "comm_Bz_claim" comm_Bz_claim t
  let t := appendPoint "comm_Cz_claim" comm_Cz_claim t
  let t := appendPoint "comm_prod_Az_Bz_claims" comm_prod_Az_Bz_claims t
  let blind_expected_claim_postsc1 := tau_claim * (prod_Az_Bz_blind - Cz_blind)
  let claim_post_phase1 := (Az_claim * Bz_claim - Cz_claim) * tau_claim
  let pe1 ← EqualityProof.prove rho gens.gens_sc.gens_1 t tape claim_post_phase1
    blind_expected_claim_postsc1 claim_post_phase1 blind_claim_postsc1
  let proof_eq_sc_phase1 := pe1.1
  let t := pe1.2.2.2.1
  let tape := pe1.2.2.2.2
  let prA := challengeScalar rho "challenege_Az" t
  let r_A := prA.1
  let prB := challengeScalar rho "challenege_Bz" prA.2
  let r_B := prB.1
  let prC := challengeScalar rho "challenege_Cz" prB.2
  let r_C := prC.1
  let t := prC.2
  let claim_phase2 := r_A * Az_claim + r_B * Bz_claim + r_C * Cz_claim
  let blind_claim_phase2 := r_A * Az_blind + r_B * Bz_blind + r_C * Cz_blind
  let et := inst.compute_eval_table_sparse inst.get_num_cons
    (zlist vars input).length (chi rx)
  let evals_ABC := fun i => r_A * et.1 i + r_B * et.2.1 i + r_C * et.2.2 i
  let p2 ← prove_quad rho gens.gens_sc.gens_1 gens.gens_sc.gens_3 claim_phase2
    blind_claim_phase2 num_rounds_y z evals_ABC t tape
  let sc_proof_phase2 := p2.1
  let ry := p2.2.1
  let z_ry := p2.2.2.1.1
  let abc_ry := p2.2.2.1.2
  let blind_claim_postsc2 := p2.2.2.2.1
  let t := p2.2.2.2.2.1
  let tape := p2.2.2.2.2.2
  let _ ← passert (1 ≤ ry.length)
  let eval_vars_at_ry := DensePolynomial.evaluate vars (ry.drop 1)
  let pbe := RandomTape.random_scalar rho "blind_eval" tape
  let blind_eval := pbe.1
  let tape := pbe.2
  let pe ← PolyEvalProof.prove rho gens.gens_pc t tape vars blinds_vars
    (ry.drop 1) eval_vars_at_ry blind_eval
  let proof_eval_vars_at_ry := pe.1
  let comm_vars_at_ry := pe.2.1
  let t := pe.2.2.1
  let tape := pe.2.2.2
  let blind_eval_Z_at_ry := (1 - ry.getD 0 0) * blind_eval
  let blind_expected_claim_postsc2 := abc_ry * blind_eval_Z_at_ry
  let claim_post_phase2 := z_ry * abc_ry
  let pe2 ← EqualityProof.prove rho gens.gens_pc.gens.gens_1 t tape claim_post_phase2
    blind_expected_claim_postsc2 claim_post_phase2 blind_claim_postsc2
  let proof_eq_sc_phase2 := pe2.1
  let t := pe2.2.2.2.1
  let tape := pe2.2.2.2.2
  some (R1CSProof.mk comm_vars sc_proof_phase1
    (comm_Az_claim, comm_Bz_claim, comm_Cz_claim, comm_prod_Az_Bz_claims)
    (pok_Cz_claim, proof_prod) proof_eq_sc_phase1 sc_proof_phase2 comm_vars_at_ry
    proof_eval_vars_at_ry proof_eq_sc_phase2, rx, ry, t, tape)

/-- r1csproof.rs: R1CSProof::verify.  Note the phase-2 closing EqualityProof
is checked under gens.gens_sc.gens_1 although the prover produced it under
gens.gens_pc.gens.gens_1, exactly as in the source. -/
def R1CSProof.verify (rho : Tr F Grp → String → F) (pf : R1CSProof F Grp)
    (num_vars num_cons : Nat) (input : List F) (evals : F × F × F)
    (t : Tr F Grp) (gens : R1CSGens Grp) :
    OE ProofVerifyError (List F × List F × Tr F Grp) := do
  let t := appendMessage "protocol-name" "R1CS proof" t
  let t := appendScalarList "input" input t
  let t := appendPoint "poly_commitment" pf.comm_vars t
  let num_rounds_x := log_2 num_cons
  let num_rounds_y := log_2 (2 * num_vars)
  let ptau := challengeVector rho "challenge_tau" num_rounds_x t
  let tau := ptau.1
  let t := ptau.2
  let claim_phase1 ← OE.lift (commitScalar (0 : F) 0 gens.gens_sc.gens_1)
  let v1 ← pf.sc_proof_phase1.verify rho claim_phase1 num_rounds_x 3
    gens.gens_sc.gens_1 gens.gens_sc.gens_4 t
  let comm_claim_post_phase1 := v1.1
  let rx := v1.2.1
  let t := v1.2.2
  let t ← KnowledgeProof.verify rho gens.gens_sc.gens_1 pf.pok_claims_phase2.1 t
    pf.claims_phase2.2.2.1
  let t ← ProductProof.verify rho gens.gens_sc.gens_1 pf.pok_claims_phase2.2 t
    pf.claims_phase2.1 pf.claims_phase2.2.1 pf.claims_phase2.2.2.2
  let t := appendPoint "comm_Az_claim" pf.claims_phase2.1 t
  let t := appendPoint "comm_Bz_claim" pf.claims_phase2.2.1 t
  let t := appendPoint "comm_Cz_claim" pf.claims_phase2.2.2.1 t
  let t := appendPoint "comm_prod_Az_Bz_claims" pf.claims_phase2.2.2.2 t
  let taus_bound_rx ← OE.lift (taus_bound_prod rx tau)
  let expected_claim_post_phase1 :=
    taus_bound_rx • (pf.claims_phase2.2.2.2 - pf.claims_phase2.2.2.1)
  let t ← EqualityProof.verify rho gens.gens_sc.gens_1 pf.proof_eq_sc_phase1 t
    expected_claim_post_phase1 comm_claim_post_phase1
  let prA := challengeScalar rho "challenege_Az" t
  let r_A := prA.1
  let prB := challengeScalar rho "challenege_Bz" prA.2
  let r_B := prB.1
  let prC := challengeScalar rho "challenege_Cz" prB.2
  let r_C := prC.1
  let t := prC.2
  let comm_claim_phase2 := r_A • pf.claims_phase2.1 + r_B • pf.claims_phase2.2.1
    + r_C • pf.claims_phase2.2.2.1
  let v2 ← pf.sc_proof_phase2.verify rho comm_claim_phase2 num_rounds_y 2
    gens.gens_sc.gens_1 gens.gens_sc.gens_3 t
  let comm_claim_post_phase2 := v2.1
  let ry := v2.2.1
  let t := v2.2.2
  let _ ← OE.lift (passert (1 ≤ ry.length))
  let t ← PolyEvalProof.verify rho gens.gens_pc pf.proof_eval_vars_at_ry t
    (ry.drop 1) pf.comm_vars_at_ry pf.comm_vars
  let poly_input_eval := SparsePolynomial.evaluate
    ((0, (1 : F)) :: (List.range input.length).map (fun i => (i + 1, input.getD i 0)))
    (ry.drop 1)
  let cie ← OE.lift (commitScalar poly_input_eval 0 gens.gens_pc.gens.gens_1)
  let comm_eval_Z_at_ry := (1 - ry.getD 0 0) • pf.comm_vars_at_ry
    + ry.getD 0 0 • cie
  let expected_claim_post_phase2 :=
    (r_A * evals.1 + r_B * evals.2.1 + r_C * evals.2.2) • comm_eval_Z_at_ry
  let t ← EqualityProof.verify rho gens.gens_sc.gens_1 pf.proof_eq_sc_phase2 t
    expected_claim_post_phase2 comm_claim_post_phase2
  pure (rx, ry, t)

end Defs

section Thms

variable {F : Type} [Field F] [DecidableEq F]
variable {Grp : Type} [AddCommGroup Grp] [Module F Grp] [DecidableEq Grp]

theorem log2fuel_pow (fuel n k : Nat) (hn : n = 2 ^ k) (hf : n ≤ fuel) :
    log2fuel fuel n = k := by
  induction fuel generalizing n k with
  | zero =>
    exfalso
    have : 0 < n := by rw [hn]; exact Nat.pos_pow_of_pos k (by norm_num)
    omega
  | succ fuel ih =>
    subst hn
    cases k with
    | zero =>
      simp [log2fuel]
    | succ j =>
      have h2 : 2 ≤ 2 ^ (j + 1) := by
        have : 2 ^ 1 ≤ 2 ^ (j + 1) := Nat.pow_le_pow_right (by norm_num) (by omega)
        simpa using this
      have hdiv : 2 ^ (j + 1) / 2 = 2 ^ j := by
        rw [Nat.pow_succ, Nat.mul_div_cancel]
        norm_num
      have hle : 2 ^ j ≤ fuel := by
        have hlt : 2 ^ j < 2 ^ (j + 1) := Nat.pow_lt_pow_succ (by norm_num)
        omega
      simp only [log2fuel, if_pos h2, hdiv]
      rw [ih (2 ^ j) j rfl hle]

theorem log_2_two_pow (k : Nat) : log_2 (2 ^ k) = k :=
  log2fuel_pow (2 ^ k) (2 ^ k) k rfl (Nat.le_refl _)

theorem commitScalar_wf {g : MultiCommitGens Grp} (h : g.wf1) (x r : F) :
    commitScalar x r g = some (commitSVal x r g) := by
  obtain ⟨h1, h2⟩ := h
  obtain ⟨a, ha⟩ := List.length_eq_one.mp h2
  simp [commitScalar, commitSVal, gfirst, ha, h1, passert]

theorem commitVec_len {g : MultiCommitGens Grp} {v : List F} (h : g.n = v.length) (r : F) :
    commitVec v r g = some (commitVVal v r g) := by
  simp [commitVec, h, passert]

theorem dotF_comm (a b : List F) : dotF a b = dotF b a := by
  induction a generalizing b with
  | nil => cases b <;> simp [dotF]
  | cons x xs ih =>
    cases b with
    | nil => simp [dotF]
    | cons y ys =>
      simp only [dotF, List.zipWith_cons_cons, List.sum_cons] at *
      rw [mul_comm, ih ys]

theorem dotF_affine (c : F) (x d a : List F) (h : x.length = d.length) :
    dotF (List.zipWith (fun xi di => c * xi + di) x d) a
      = c * dotF x a + dotF d a := by
  induction x generalizing d a with
  | nil =>
    cases d with
    | nil => simp [dotF]
    | cons _ _ => simp at h
  | cons xi xs ih =>
    cases d with
    | nil => simp at h
    | cons di ds =>
      cases a with
      | nil => simp [dotF]
      | cons ai as =>
        simp only [List.zipWith_cons_cons, dotF, List.sum_cons] at *
        rw [ih ds as (by simpa using h)]
        ring

theorem msmList_affine (c : F) (x d : List F) (Gs : List Grp)
    (h : x.length = d.length) :
    msmList (List.zipWith (fun xi di => c * xi + di) x d) Gs
      = c • msmList x Gs + msmList d Gs := by
  induction x generalizing d Gs with
  | nil =>
    cases d with
    | nil => simp [msmList]
    | cons _ _ => simp at h
  | cons xi xs ih =>
    cases d with
    | nil => simp at h
    | cons di ds =>
      cases Gs with
      | nil => simp [msmList]
      | cons g gs =>
        simp only [List.zipWith_cons_cons, msmList, List.sum_cons] at *
        rw [ih ds gs (by simpa using h)]
        rw [add_smul, mul_smul, smul_add]
        abel

theorem commitSVal_affine (c x t1 r t2 : F) (g : MultiCommitGens Grp) :
    commitSVal (c * x + t1) (c * r + t2) g
      = c • commitSVal x r g + commitSVal t1 t2 g := by
  simp only [commitSVal, add_smul, mul_smul, smul_add]
  abel

/-- Variant of commitSVal_affine matching the response shape x * c + t of the
sources. -/
theorem commitSVal_affine_r (c x t1 r t2 : F) (g : MultiCommitGens Grp) :
    commitSVal (x * c + t1) (r * c + t2) g
      = c • commitSVal x r g + commitSVal t1 t2 g := by
  simp only [commitSVal, add_smul, mul_comm, mul_smul, smul_add]
  abel

/-- Variant of commitSVal_affine matching the response shape b + c * x of the
sources. -/
theorem commitSVal_affine_l (c x b1 r b2 : F) (g : MultiCommitGens Grp) :
    commitSVal (b1 + c * x) (b2 + c * r) g
      = commitSVal b1 b2 g + c • commitSVal x r g := by
  simp only [commitSVal, add_smul, mul_smul, smul_add]
  abel

theorem commitSVal_combine (w0 a ra w1 b rb : F) (g : MultiCommitGens Grp) :
    commitSVal (w0 * a + w1 * b) (w0 * ra + w1 * rb) g
      = w0 • commitSVal a ra g + w1 • commitSVal b rb g := by
  simp only [commitSVal, add_smul, mul_smul, smul_add]
  abel

theorem commitSVal_smul (c x r : F) (g : MultiCommitGens Grp) :
    commitSVal (c * x) (c * r) g = c • commitSVal x r g := by
  simp only [commitSVal, mul_smul, smul_add]

theorem commitSVal_sub (x r y s : F) (g : MultiCommitGens Grp) :
    commitSVal (x - y) (r - s) g = commitSVal x r g - commitSVal y s g := by
  simp only [commitSVal, sub_smul]
  abel

/-- Completeness of KnowledgeProof: the honest prover convinces the verifier,
and both sides leave the transcript in the same state. -/
theorem KnowledgeProof.knowledge_complete (rho : Tr F Grp → String → F)
    {gens_n : MultiCommitGens Grp} (hg : gens_n.wf1)
    (x r : F) (t : Tr F Grp) (tape : RandomTape F Grp) :
    ∃ pf t2 tape2,
      KnowledgeProof.prove rho gens_n t tape x r
        = some (pf, commitSVal x r gens_n, t2, tape2) ∧
      ∀ C, C = commitSVal x r gens_n →
        KnowledgeProof.verify rho gens_n pf t C = some (Except.ok t2) := by
  simp only [KnowledgeProof.prove, commitScalar_wf hg, obind_some]
  refine ⟨_, _, _, rfl, ?_⟩
  intro C hC
  subst hC
  simp only [KnowledgeProof.verify, commitScalar_wf hg, OE.lift_some, OE.bind_ok]
  rw [commitSVal_affine_r, vcheck_pos rfl]
  rfl

/-- Completeness of EqualityProof: when the two committed values agree the
honest prover convinces the verifier, for arbitrary blinds. -/
theorem EqualityProof.equality_complete (rho : Tr F Grp → String → F)
    {gens_n : MultiCommitGens Grp} (hg : gens_n.wf1)
    (v1 s1 v2 s2 : F) (hv : v1 = v2) (t : Tr F Grp) (tape : RandomTape F Grp) :
    ∃ pf t2 tape2,
      EqualityProof.prove rho gens_n t tape v1 s1 v2 s2
        = some (pf, commitSVal v1 s1 gens_n, commitSVal v2 s2 gens_n, t2, tape2) ∧
      ∀ C1 C2, C1 = commitSVal v1 s1 gens_n → C2 = commitSVal v2 s2 gens_n →
        EqualityProof.verify rho gens_n pf t C1 C2 = some (Except.ok t2) := by
  simp only [EqualityProof.prove, commitScalar_wf hg, obind_some]
  refine ⟨_, _, _, rfl, ?_⟩
  intro C1 C2 hC1 hC2
  subst hC1; subst hC2; subst hv
  simp only [EqualityProof.verify]
  have hkey : ∀ c r : F,
      (c * (s1 - s2) + r) • gens_n.h
        = c • (commitSVal v1 s1 gens_n - commitSVal v1 s2 gens_n) + r • gens_n.h := by
    intro c r
    rw [← commitSVal_sub]
    simp only [commitSVal, sub_self, zero_smul, zero_add, add_smul, mul_smul]
  rw [hkey, vcheck_pos rfl]
  rfl

/-- The algebraic content of the third product check: with honest data the
delta equation holds over any module, using the committed X as the base. -/
theorem product_delta_check (c x y rX rZ b3 b5 : F) (g0 h : Grp) :
    (b3 + c * y) • (x • g0 + rX • h) + (b5 + c * (rZ - rX * y)) • h
      = (b3 • (x • g0 + rX • h) + b5 • h) + c • ((x * y) • g0 + rZ • h) := by
  module

/-- Completeness of ProductProof: honest (x, y, z = x * y) with arbitrary
blinds convinces the verifier. -/
theorem ProductProof.product_complete (rho : Tr F Grp → String → F)
    {gens_n : MultiCommitGens Grp} (hg : gens_n.wf1)
    (x rX y rY z rZ : F) (hz : z = x * y) (t : Tr F Grp) (tape : RandomTape F Grp) :
    ∃ pf t2 tape2,
      ProductProof.prove rho gens_n t tape x rX y rY z rZ
        = some (pf, commitSVal x rX gens_n, commitSVal y rY gens_n,
            commitSVal z rZ gens_n, t2, tape2) ∧
      ∀ X Y Z, X = commitSVal x rX gens_n → Y = commitSVal y rY gens_n →
        Z = commitSVal z rZ gens_n →
        ProductProof.verify rho gens_n pf t X Y Z = some (Except.ok t2) := by
  have hd : ∀ (b3v b5v : F) (X : Grp),
      commitScalar b3v b5v { n := 1, G := [X], h := gens_n.h }
        = some (b3v • X + b5v • gens_n.h) := by
    intro b3v b5v X
    simp [commitScalar, passert]
  simp only [ProductProof.prove, commitScalar_wf hg, hd, obind_some]
  refine ⟨_, _, _, rfl, ?_⟩
  intro X Y Z hX hY hZ
  subst hX; subst hY; subst hZ; subst hz
  simp only [ProductProof.verify, ProductProof.check_equality, commitScalar_wf hg,
    hd, obind_some, OE.lift_some, OE.bind_ok]
  have h3 : ∀ c b3v b5v : F,
      (b3v • commitSVal x rX gens_n + b5v • gens_n.h)
          + c • commitSVal (x * y) rZ gens_n
        = (b3v + c * y) • commitSVal x rX gens_n
          + (b5v + c * (rZ - rX * y)) • gens_n.h := by
    intro c b3v b5v
    simp only [commitSVal]
    rw [product_delta_check]
  rw [commitSVal_affine_l, commitSVal_affine_l, ← h3]
  simp

theorem challengeVector_length {F Grp : Type} (rho : Tr F Grp → String → F)
    (label : String) (k : Nat) (t : Tr F Grp) :
    (challengeVector rho label k t).1.length = k := by
  induction k generalizing t with
  | zero => simp [challengeVector]
  | succ k ih => simp [challengeVector, ih]

theorem commitVVal_affine (c : F) (x d : List F) (bx rd : F)
    (g : MultiCommitGens Grp) (h : x.length = d.length) :
    commitVVal (List.zipWith (fun xi di => c * xi + di) x d) (c * bx + rd) g
      = c • commitVVal x bx g + commitVVal d rd g := by
  simp only [commitVVal, msmList_affine c x d g.G h, add_smul, mul_smul, smul_add]
  abel

/-- Acceptance of the linear DotProductProof verifier on an honestly formed
proof object, stated with the Fiat-Shamir challenge unfolded explicitly. -/
theorem DotProductProof.verify_honest (rho : Tr F Grp → String → F)
    {gens_1 gens_n : MultiCommitGens Grp} (h1 : gens_1.wf1)
    (x d a : List F) (bx rd rb blind_y y c : F) (t t1 : Tr F Grp)
    (Cx Cy delta beta : Grp)
    (hlen : x.length = a.length) (hdlen : d.length = x.length)
    (hn : gens_n.n = a.length) (hy : y = dotF a x)
    (hCx : Cx = commitVVal x bx gens_n) (hCy : Cy = commitSVal y blind_y gens_1)
    (hdelta : delta = commitVVal d rd gens_n)
    (hbeta : beta = commitSVal (dotF a d) rb gens_1)
    (ht1 : t1 = appendPoint "beta" beta (appendPoint "delta" delta
      (appendScalarList "a" a (appendPoint "Cy" Cy (appendPoint "Cx" Cx
        (appendMessage "protocol-name" "dot product proof" t))))))
    (hc : c = rho t1 "c") :
    DotProductProof.verify rho gens_1 gens_n
      { delta := delta, beta := beta,
        z := List.zipWith (fun xi di => c * xi + di) x d,
        z_delta := c * bx + rd, z_beta := c * blind_y + rb } t a Cx Cy
      = some (Except.ok (TEntry.squeeze "c" :: t1)) := by
  have hzlen : (List.zipWith (fun xi di => c * xi + di) x d).length = a.length := by
    rw [List.length_zipWith, hdlen, Nat.min_self, hlen]
  have hzn : gens_n.n = (List.zipWith (fun xi di => c * xi + di) x d).length := by
    rw [hzlen]
    exact hn
  simp only [DotProductProof.verify, vassert_pos hn, vassert_pos h1.1,
    commitVec_len hzn, compute_dotproduct, passert_pos hzlen, obind_some,
    commitScalar_wf h1, OE.lift_some, OE.bind_ok]
  subst hCx; subst hCy; subst hdelta; subst hbeta; subst ht1; subst hc
  rw [commitVVal_affine _ _ _ _ _ _ hdlen.symm]
  rw [dotF_affine _ x d a hdlen.symm]
  rw [show dotF x a = y by rw [hy, dotF_comm]]
  rw [show dotF d a = dotF a d from dotF_comm d a]
  rw [commitSVal_affine]
  rw [vcheck_pos ⟨rfl, rfl⟩]
  rfl

/-- Completeness of the linear DotProductProof: for honest data with
y = ⟨a, x⟩ and matching generator sizes, prove then verify succeeds and both
sides leave the transcript in the same state. -/
theorem DotProductProof.dot_complete (rho : Tr F Grp → String → F)
    {gens_1 gens_n : MultiCommitGens Grp} (h1 : gens_1.wf1)
    (x_vec : List F) (blind_x : F) (a_vec : List F) (y : F) (blind_y : F)
    (hlen : x_vec.length = a_vec.length) (hn : gens_n.n = a_vec.length)
    (hy : y = dotF a_vec x_vec)
    (t : Tr F Grp) (tape : RandomTape F Grp) :
    ∃ pf t2 tape2,
      DotProductProof.prove rho gens_1 gens_n t tape x_vec blind_x a_vec y blind_y
        = some (pf, commitVVal x_vec blind_x gens_n, commitSVal y blind_y gens_1,
            t2, tape2) ∧
      ∀ Cx Cy, Cx = commitVVal x_vec blind_x gens_n →
        Cy = commitSVal y blind_y gens_1 →
        DotProductProof.verify rho gens_1 gens_n pf t a_vec Cx Cy
          = some (Except.ok t2) := by
  have hdlen : (RandomTape.random_vector rho "d_vec" x_vec.length tape).1.length
      = x_vec.length := challengeVector_length rho "d_vec" x_vec.length tape
  have hcx : commitVec x_vec blind_x gens_n
      = some (commitVVal x_vec blind_x gens_n) :=
    commitVec_len (by rw [hn, hlen]) _
  have hcd : ∀ r : F,
      commitVec (RandomTape.random_vector rho "d_vec" x_vec.length tape).1 r gens_n
        = some (commitVVal (RandomTape.random_vector rho "d_vec" x_vec.length tape).1
            r gens_n) :=
    fun r => commitVec_len (by rw [hn, ← hlen, hdlen]) _
  have hdot : compute_dotproduct a_vec
      (RandomTape.random_vector rho "d_vec" x_vec.length tape).1
        = some (dotF a_vec (RandomTape.random_vector rho "d_vec" x_vec.length tape).1) := by
    unfold compute_dotproduct
    rw [passert_pos (by rw [hdlen, hlen]), obind_some]
  simp only [DotProductProof.prove, commitScalar_wf h1, hcx, hcd, hdot,
    passert_pos hlen, passert_pos hn, passert_pos h1.1, obind_some]
  refine ⟨_, _, _, rfl, ?_⟩
  intro Cx Cy hCx hCy
  subst hCx; subst hCy
  exact DotProductProof.verify_honest rho h1 x_vec
    (RandomTape.random_vector rho "d_vec" x_vec.length tape).1 a_vec
    blind_x _ _ blind_y y _ t _ _ _ _ _
    hlen hdlen hn hy rfl rfl rfl rfl rfl rfl

theorem msmList_append (x y : List F) (g k : List Grp) (h : x.length = g.length) :
    msmList (x ++ y) (g ++ k) = msmList x g + msmList y k := by
  unfold msmList
  rw [List.zipWith_append _ _ _ _ _ h, List.sum_append]

theorem dotF_append (x y a b : List F) (h : x.length = a.length) :
    dotF (x ++ y) (a ++ b) = dotF x a + dotF y b := by
  unfold dotF
  rw [List.zipWith_append _ _ _ _ _ h, List.sum_append]

/-- One coordinate of the Bullet fold on the generator side. -/
theorem bullet_fold_point (u : F) (hu : u ≠ 0) (xl xr : F) (gl gr : Grp) :
    (u * xl + u⁻¹ * xr) • (u⁻¹ • gl + u • gr)
      = xl • gl + xr • gr + (u * u) • xl • gr + (u⁻¹ * u⁻¹) • xr • gl := by
  match_scalars <;> field_simp <;> ring

/-- One coordinate of the Bullet fold on the scalar side. -/
theorem bullet_fold_point_scalar (u : F) (hu : u ≠ 0) (xl xr al ar : F) :
    (u * xl + u⁻¹ * xr) * (u⁻¹ * al + u * ar)
      = xl * al + xr * ar + (u * u) * (xl * ar) + (u⁻¹ * u⁻¹) * (xr * al) := by
  field_simp
  ring

theorem msmList_bullet_fold (u : F) (hu : u ≠ 0) :
    ∀ (xL xR : List F) (gL gR : List Grp),
    xL.length = xR.length → gL.length = xL.length → gR.length = xL.length →
    msmList (List.zipWith (fun a b => u * a + u⁻¹ * b) xL xR)
        (List.zipWith (fun a b : Grp => u⁻¹ • a + u • b) gL gR)
      = msmList xL gL + msmList xR gR
        + (u * u) • msmList xL gR + (u⁻¹ * u⁻¹) • msmList xR gL := by
  intro xL
  induction xL with
  | nil =>
    intro xR gL gR h1 h2 h3
    obtain rfl : xR = [] := List.length_eq_zero.mp (by simpa using h1.symm)
    simp [msmList]
  | cons xh xs ih =>
    intro xR gL gR h1 h2 h3
    match xR, gL, gR, h1, h2, h3 with
    | rh :: rs, ah :: as_, bh :: bs, h1, h2, h3 =>
      simp only [List.length_cons] at h1 h2 h3
      simp only [List.zipWith_cons_cons, msmList, List.sum_cons]
      have ihr := ih rs as_ bs (by omega) (by omega) (by omega)
      unfold msmList at ihr
      rw [ihr, bullet_fold_point u hu xh rh ah bh]
      simp only [smul_add]
      abel

theorem dotF_bullet_fold (u : F) (hu : u ≠ 0) :
    ∀ (xL xR aL aR : List F),
    xL.length = xR.length → aL.length = xL.length → aR.length = xL.length →
    dotF (List.zipWith (fun a b => u * a + u⁻¹ * b) xL xR)
        (List.zipWith (fun a b => u⁻¹ * a + u * b) aL aR)
      = dotF xL aL + dotF xR aR
        + (u * u) * dotF xL aR + (u⁻¹ * u⁻¹) * dotF xR aL := by
  intro xL
  induction xL with
  | nil =>
    intro xR aL aR h1 h2 h3
    obtain rfl : xR = [] := List.length_eq_zero.mp (by simpa using h1.symm)
    simp [dotF]
  | cons xh xs ih =>
    intro xR aL aR h1 h2 h3
    match xR, aL, aR, h1, h2, h3 with
    | rh :: rs, ah :: as_, bh :: bs, h1, h2, h3 =>
      simp only [List.length_cons] at h1 h2 h3
      simp only [List.zipWith_cons_cons, dotF, List.sum_cons]
      have ihr := ih rs as_ bs (by omega) (by omega) (by omega)
      unfold dotF at ihr
      rw [ihr, bullet_fold_point_scalar u hu xh rh ah bh]
      ring

/-- Modelled from the spec (4.4): one round of the Bullet reduction preserves
the commitment invariant: folding the vectors, generators and blind, the
accumulated commitment Gamma + u^2 L + u^-2 R is the commitment of the folded
state.  Stated over the split halves. -/
theorem bullet_round_invariant (u : F) (hu : u ≠ 0) (Q hb : Grp)
    (xL xR aL aR : List F) (gL gR : List Grp) (sL sR blind : F)
    (h1 : xL.length = xR.length) (h2 : gL.length = xL.length)
    (h3 : gR.length = xL.length) (h4 : aL.length = xL.length)
    (h5 : aR.length = xL.length) :
    (u * u) • (msmList xL gR + dotF xL aR • Q + sL • hb)
      + (msmList (xL ++ xR) (gL ++ gR) + dotF (xL ++ xR) (aL ++ aR) • Q + blind • hb)
      + (u⁻¹ * u⁻¹) • (msmList xR gL + dotF xR aL • Q + sR • hb)
    = msmList (List.zipWith (fun a b => u * a + u⁻¹ * b) xL xR)
          (List.zipWith (fun a b : Grp => u⁻¹ • a + u • b) gL gR)
      + dotF (List.zipWith (fun a b => u * a + u⁻¹ * b) xL xR)
          (List.zipWith (fun a b => u⁻¹ * a + u * b) aL aR) • Q
      + (blind + (u * u) * sL + (u⁻¹ * u⁻¹) * sR) • hb := by
  rw [msmList_append _ _ _ _ (by omega), dotF_append _ _ _ _ (by omega)]
  rw [msmList_bullet_fold u hu xL xR gL gR h1 h2 h3]
  rw [dotF_bullet_fold u hu xL xR aL aR h1 h4 h5]
  module

/-- Completeness of the modelled Bullet reduction: when the vector lengths are
2^k and every squeezed round challenge is nonzero, the verifier accepts the
honest trail, recomputes the same folded values, and its accumulated
commitment is the Pedersen commitment of the folded witness. -/
theorem bullet_complete (rho : Tr F Grp → String → F)
    (hrho : ∀ s : Tr F Grp, rho s "u" ≠ 0) :
    ∀ (k : Nat) (Q hb : Grp) (Gs : List Grp) (x a : List F) (blind : F)
      (blinds : List (F × F)) (t : Tr F Grp),
    x.length = 2 ^ k → a.length = 2 ^ k → Gs.length = 2 ^ k →
    ∃ Ls Rs xh ah gh rh t2,
      bullet_prove rho k Q Gs hb x a blind blinds t
        = some (Ls, Rs, xh, ah, gh, rh, t2) ∧
      ∀ Gamma, Gamma = msmList x Gs + dotF x a • Q + blind • hb →
        bullet_verify rho k Ls Rs a Gs Gamma t
          = some (Except.ok (gh, xh • gh + (xh * ah) • Q + rh • hb, ah, t2)) := by
  intro k
  induction k with
  | zero =>
    intro Q hb Gs x a blind blinds t hx ha hg
    refine ⟨[], [], x.headD 0, a.headD 0, Gs.headD 0, blind, t, rfl, ?_⟩
    intro Gamma hGamma
    obtain ⟨xv, hxv⟩ := List.length_eq_one.mp (by simpa using hx)
    obtain ⟨av, hav⟩ := List.length_eq_one.mp (by simpa using ha)
    obtain ⟨gv, hgv⟩ := List.length_eq_one.mp (by simpa using hg)
    subst hxv; subst hav; subst hgv; subst hGamma
    simp [bullet_verify, msmList, dotF]
  | succ k ih =>
    intro Q hb Gs x a blind blinds t hx ha hg
    have hpow : 2 ^ k ≤ 2 ^ (k + 1) := by
      have h2 : (2 : Nat) ^ k < 2 ^ (k + 1) := Nat.pow_lt_pow_succ (by norm_num)
      omega
    have hxL : (x.take (2 ^ k)).length = 2 ^ k := by
      rw [List.length_take]; omega
    have hxR : (x.drop (2 ^ k)).length = 2 ^ k := by
      rw [List.length_drop, hx]; omega
    have haL : (a.take (2 ^ k)).length = 2 ^ k := by
      rw [List.length_take]; omega
    have haR : (a.drop (2 ^ k)).length = 2 ^ k := by
      rw [List.length_drop, ha]; omega
    have hgL : (Gs.take (2 ^ k)).length = 2 ^ k := by
      rw [List.length_take]; omega
    have hgR : (Gs.drop (2 ^ k)).length = 2 ^ k := by
      rw [List.length_drop, hg]; omega
    set LE : Grp := msmList (x.take (2 ^ k)) (Gs.drop (2 ^ k))
      + dotF (x.take (2 ^ k)) (a.drop (2 ^ k)) • Q
      + (blinds.headD (0, 0)).1 • hb with hLE
    set RE : Grp := msmList (x.drop (2 ^ k)) (Gs.take (2 ^ k))
      + dotF (x.drop (2 ^ k)) (a.take (2 ^ k)) • Q
      + (blinds.headD (0, 0)).2 • hb with hRE
    set tE : Tr F Grp := appendPoint "R" RE (appendPoint "L" LE t) with htE
    set u : F := rho tE "u" with hu_def
    have hu : u ≠ 0 := hrho tE
    set x1E : List F := List.zipWith (fun p q => u * p + u⁻¹ * q)
      (x.take (2 ^ k)) (x.drop (2 ^ k)) with hx1E
    set a1E : List F := List.zipWith (fun p q => u⁻¹ * p + u * q)
      (a.take (2 ^ k)) (a.drop (2 ^ k)) with ha1E
    set g1E : List Grp := List.zipWith (fun p q : Grp => u⁻¹ • p + u • q)
      (Gs.take (2 ^ k)) (Gs.drop (2 ^ k)) with hg1E
    set blind1E : F := blind + (u * u) * (blinds.headD (0, 0)).1
      + (u⁻¹ * u⁻¹) * (blinds.headD (0, 0)).2 with hblind1E
    have hx1 : x1E.length = 2 ^ k := by
      rw [hx1E, List.length_zipWith, hxL, hxR]; omega
    have ha1 : a1E.length = 2 ^ k := by
      rw [ha1E, List.length_zipWith, haL, haR]; omega
    have hg1 : g1E.length = 2 ^ k := by
      rw [hg1E, List.length_zipWith, hgL, hgR]; omega
    obtain ⟨Ls, Rs, xh, ah, gh, rh, t2, hprove, hverify⟩ :=
      ih Q hb g1E x1E a1E blind1E blinds.tail (TEntry.squeeze "u" :: tE) hx1 ha1 hg1
    have hstep : bullet_prove rho (k + 1) Q Gs hb x a blind blinds t
        = Option.bind (bullet_prove rho k Q g1E hb x1E a1E blind1E blinds.tail
            (TEntry.squeeze "u" :: tE))
          (fun rec_ => some (LE :: rec_.1, RE :: rec_.2.1, rec_.2.2)) := rfl
    rw [hstep, hprove]
    refine ⟨LE :: Ls, RE :: Rs, xh, ah, gh, rh, t2, rfl, ?_⟩
    intro Gamma hGamma
    have hinv : (u * u) • LE + Gamma + (u⁻¹ * u⁻¹) • RE
        = msmList x1E g1E + dotF x1E a1E • Q + blind1E • hb := by
      rw [hGamma, hLE, hRE, hx1E, ha1E, hg1E, hblind1E]
      have hsplit : msmList x Gs + dotF x a • Q + blind • hb
          = msmList (x.take (2 ^ k) ++ x.drop (2 ^ k))
              (Gs.take (2 ^ k) ++ Gs.drop (2 ^ k))
            + dotF (x.take (2 ^ k) ++ x.drop (2 ^ k))
                (a.take (2 ^ k) ++ a.drop (2 ^ k)) • Q + blind • hb := by
        rw [List.take_append_drop, List.take_append_drop, List.take_append_drop]
      rw [hsplit]
      exact bullet_round_invariant u hu Q hb _ _ _ _ _ _ _ _ blind
        (by omega) (by omega) (by omega) (by omega) (by omega)
    have hvstep : bullet_verify rho (k + 1) (LE :: Ls) (RE :: Rs) a Gs Gamma t
        = Bind.bind (vcheck (u ≠ 0))
            (fun _ => bullet_verify rho k Ls Rs a1E g1E
              ((u * u) • LE + Gamma + (u⁻¹ * u⁻¹) • RE) (TEntry.squeeze "u" :: tE)) := rfl
    rw [hvstep, vcheck_pos hu, OE.bind_ok]
    rw [hinv]
    exact hverify _ rfl

/-- The algebraic closing identity of the log dot-product argument. -/
theorem log_closing (c d rd rb xh ah rh : F) (gh Q hb : Grp) :
    ah • (c • (xh • gh + (xh * ah) • Q + rh • hb) + (d • Q + rb • hb))
        + (d • gh + rd • hb)
      = (d + c * (xh * ah)) • (gh + ah • Q) + (ah * (c * rh + rb) + rd) • hb := by
  module

/-- Completeness of DotProductProofLog for a power-of-two vector length, under
the structural facts produced by DotProductProofGens::new (shared h, one
gens_1 generator) and nonzero Bullet challenges. -/
theorem DotProductProofLog.log_complete (rho : Tr F Grp → String → F)
    (hrho : ∀ s : Tr F Grp, rho s "u" ≠ 0)
    {gens : DotProductProofGens Grp} (k : Nat)
    (h1 : gens.gens_1.wf1) (hh : gens.gens_1.h = gens.gens_n.h)
    (x_vec : List F) (blind_x : F) (a_vec : List F) (y : F) (blind_y : F)
    (hx : x_vec.length = 2 ^ k) (hlen : x_vec.length = a_vec.length)
    (hgn : gens.gens_n.n = a_vec.length) (hgG : gens.gens_n.G.length = x_vec.length)
    (hn : gens.n = x_vec.length) (hy : y = dotF a_vec x_vec)
    (t : Tr F Grp) (tape : RandomTape F Grp) :
    ∃ pf t2 tape2,
      DotProductProofLog.prove rho gens t tape x_vec blind_x a_vec y blind_y
        = some (pf, commitVVal x_vec blind_x gens.gens_n,
            commitSVal y blind_y gens.gens_1, t2, tape2) ∧
      DotProductProofLog.verify rho x_vec.length gens pf t a_vec
          (commitVVal x_vec blind_x gens.gens_n) (commitSVal y blind_y gens.gens_1)
        = some (Except.ok t2) := by
  have hlog : log_2 x_vec.length = k := by
    rw [hx]
    exact log_2_two_pow k
  have hcx : commitVec x_vec blind_x gens.gens_n
      = some (commitVVal x_vec blind_x gens.gens_n) :=
    commitVec_len (by rw [hgn, hlen]) _
  obtain ⟨g1e, hg1e⟩ := List.length_eq_one.mp h1.2
  have hhead : gens.gens_1.G.head? = some (gfirst gens.gens_1) := by
    simp [gfirst, hg1e]
  have hdel : ∀ (dv rv : F) (gh : Grp),
      commitScalar dv rv { n := 1, G := [gh], h := gens.gens_1.h }
        = some (dv • gh + rv • gens.gens_1.h) := by
    intro dv rv gh
    simp [commitScalar, passert]
  obtain ⟨Ls, Rs, xh, ah, gh, rh, t2b, hbp, hbv⟩ :=
    bullet_complete rho hrho k (gfirst gens.gens_1) gens.gens_n.h gens.gens_n.G
      x_vec a_vec (blind_x + blind_y)
      (List.zip
        (RandomTape.random_vector rho "blinds_vec_1" (2 * k)
          (RandomTape.random_scalar rho "r_delta"
            (RandomTape.random_scalar rho "r_delta"
              (RandomTape.random_scalar rho "d" tape).2).2).2).1
        (RandomTape.random_vector rho "blinds_vec_2" (2 * k)
          (RandomTape.random_vector rho "blinds_vec_1" (2 * k)
            (RandomTape.random_scalar rho "r_delta"
              (RandomTape.random_scalar rho "r_delta"
                (RandomTape.random_scalar rho "d" tape).2).2).2).2).1)
      (appendScalarList "a" a_vec
        (appendPoint "Cy" (commitSVal y blind_y gens.gens_1)
          (appendPoint "Cx" (commitVVal x_vec blind_x gens.gens_n)
            (appendMessage "protocol-name" "dot product proof (log)" t))))
      hx (by rw [← hlen, hx]) (by rw [hgG, hx])
  simp only [DotProductProofLog.prove, passert_pos hlen, passert_pos hn,
    hlog, hcx, commitScalar_wf h1, hhead, hdel, obind_some]
  rw [hbp]
  simp only [obind_some, hdel, commitScalar_wf h1]
  refine ⟨_, _, _, rfl, ?_⟩
  have hGamma : commitVVal x_vec blind_x gens.gens_n + commitSVal y blind_y gens.gens_1
      = msmList x_vec gens.gens_n.G + dotF x_vec a_vec • gfirst gens.gens_1
        + (blind_x + blind_y) • gens.gens_n.h := by
    rw [commitVVal, commitSVal, hh, hy, dotF_comm a_vec x_vec]
    module
  simp only [DotProductProofLog.verify, vassert_pos hn.symm,
    vassert_pos hlen.symm, vassert_pos (show gens.n = x_vec.length from hn),
    hlog, OE.bind_ok]
  rw [hGamma]
  rw [hbv _ rfl]
  simp only [OE.bind_ok, hhead, OE.lift_some]
  have hclose : ∀ c dv rdv rbv : F,
      ah • (c • (xh • gh + (xh * ah) • gfirst gens.gens_1 + rh • gens.gens_n.h)
          + commitSVal dv rbv gens.gens_1)
        + (dv • gh + rdv • gens.gens_1.h)
      = (dv + c * (xh * ah)) • (gh + ah • gfirst gens.gens_1)
          + (ah * (c * rh + rbv) + rdv) • gens.gens_1.h := by
    intro c dv rdv rbv
    simp only [commitSVal]
    rw [hh]
    exact log_closing c dv rdv rbv xh ah rh gh (gfirst gens.gens_1) gens.gens_n.h
  rw [hclose]
  rw [vassert_pos rfl, vcheck_pos rfl]
  rfl

/-- Structural facts about DotProductProofGens::new: it always succeeds, the
sizes are as declared, the length-1 set is well formed, and the blinding base
h is shared between the two split parts. -/
theorem DotProductProofGens.dp_gens_new_spec (gensOf : String → Nat → Grp)
    (n : Nat) (label : String) :
    ∃ gens : DotProductProofGens Grp,
      DotProductProofGens.new gensOf n label = some gens ∧
      gens.n = n ∧ gens.gens_n.n = n ∧ gens.gens_n.G.length = n ∧
      gens.gens_1.wf1 ∧ gens.gens_1.h = gens.gens_n.h := by
  have hlen : ((List.range (n + 1)).map (gensOf label)).length = n + 1 := by
    simp
  refine ⟨DotProductProofGens.mk n
      (MultiCommitGens.mk ((((List.range (n + 1)).map (gensOf label)).take n).length)
        (((List.range (n + 1)).map (gensOf label)).take n) (gensOf label (n + 1)))
      (MultiCommitGens.mk ((((List.range (n + 1)).map (gensOf label)).drop n).length)
        (((List.range (n + 1)).map (gensOf label)).drop n) (gensOf label (n + 1))),
    ?_, rfl, ?_, ?_, ⟨?_, ?_⟩, rfl⟩
  · unfold DotProductProofGens.new MultiCommitGens.split_at MultiCommitGens.new
    rw [if_pos (by rw [hlen]; omega)]
    rfl
  · show (((List.range (n + 1)).map (gensOf label)).take n).length = n
    rw [List.length_take, hlen]; omega
  · show (((List.range (n + 1)).map (gensOf label)).take n).length = n
    rw [List.length_take, hlen]; omega
  · show (((List.range (n + 1)).map (gensOf label)).drop n).length = 1
    rw [List.length_drop, hlen]; omega
  · show (((List.range (n + 1)).map (gensOf label)).drop n).length = 1
    rw [List.length_drop, hlen]; omega

/-- C8: MultiCommitGens::new(m+n, L).split_at(m) returns the first m
generators of MultiCommitGens::new(m+n, L) and the remaining n generators,
both carrying the blinding base h of the original. -/
theorem multiCommitGens_split_law (gensOf : String → Nat → Grp)
    (m n : Nat) (L : String) :
    (MultiCommitGens.new gensOf (m + n) L).split_at m
      = some
        (MultiCommitGens.mk m ((MultiCommitGens.new gensOf (m + n) L).G.take m)
          (MultiCommitGens.new gensOf (m + n) L).h,
         MultiCommitGens.mk n ((MultiCommitGens.new gensOf (m + n) L).G.drop m)
          (MultiCommitGens.new gensOf (m + n) L).h) := by
  have hlen : (MultiCommitGens.new gensOf (m + n) L).G.length = m + n := by
    simp [MultiCommitGens.new]
  unfold MultiCommitGens.split_at
  rw [if_pos (by rw [hlen]; omega)]
  have h1 : ((MultiCommitGens.new gensOf (m + n) L).G.take m).length = m := by
    rw [List.length_take, hlen]; omega
  have h2 : ((MultiCommitGens.new gensOf (m + n) L).G.drop m).length = n := by
    rw [List.length_drop, hlen]; omega
  rw [h1, h2]

/-- C4: the source seeds RandomTape::new from ark_std::test_rng, a PRNG with
a hard-coded seed; consequently the tape construction is independent of the
ambient entropy and two separate invocations with the same name produce
identical blinding-scalar streams, refuting the claimed independence. -/
theorem randomTape_new_entropy_independent (fixed_draw : F) (e1 e2 : Nat)
    (name : String) (rho : Tr F Grp → String → F) (labels : List String) :
    tapeStream rho labels (RandomTape.new fixed_draw e1 name)
      = tapeStream rho labels (RandomTape.new fixed_draw e2 name) := rfl

/-- C6: for every scalar x and blind r, KnowledgeProof::prove produces the
commitment C = x G + r h and a proof that KnowledgeProof::verify accepts on a
matching transcript; and the verifier accepts exactly when
z1 G + z2 h = c C + alpha. -/
theorem knowledgeProof_prove_verify_ok (rho : Tr F Grp → String → F)
    (gens_n : MultiCommitGens Grp) (hg : gens_n.wf1)
    (x r : F) (t : Tr F Grp) (tape : RandomTape F Grp) :
    (∃ pf t2 tape2,
      KnowledgeProof.prove rho gens_n t tape x r
        = some (pf, commitSVal x r gens_n, t2, tape2) ∧
      KnowledgeProof.verify rho gens_n pf t (commitSVal x r gens_n)
        = some (Except.ok t2)) ∧
    (∀ (pf : KnowledgeProof F Grp) (C : Grp) (tv : Tr F Grp),
      KnowledgeProof.verify rho gens_n pf tv C
        = (if commitSVal pf.z1 pf.z2 gens_n
              = (challengeScalar rho "c" (appendPoint "alpha" pf.alpha
                  (appendPoint "C" C
                    (appendMessage "protocol-name" "knowledge proof" tv)))).1 • C
                + pf.alpha
           then some (Except.ok ((challengeScalar rho "c" (appendPoint "alpha" pf.alpha
                  (appendPoint "C" C
                    (appendMessage "protocol-name" "knowledge proof" tv)))).2))
           else some (Except.error ProofVerifyError.internalError))) := by
  constructor
  · obtain ⟨pf, t2, tape2, hp, hv⟩ := KnowledgeProof.knowledge_complete rho hg x r t tape
    exact ⟨pf, t2, tape2, hp, hv _ rfl⟩
  · intro pf C tv
    simp only [KnowledgeProof.verify, commitScalar_wf hg, OE.lift_some, OE.bind_ok]
    by_cases hcond : commitSVal pf.z1 pf.z2 gens_n
        = (challengeScalar rho "c" (appendPoint "alpha" pf.alpha
            (appendPoint "C" C (appendMessage "protocol-name" "knowledge proof" tv)))).1 • C
          + pf.alpha
    · rw [vcheck_pos hcond, if_pos hcond]
      rfl
    · rw [vcheck_neg hcond, if_neg hcond]
      rfl

/-- C6 witness. -/
theorem knowledgeProof_prove_verify_ok_witness :
    (MultiCommitGens.mk 1 [(4 : ZMod 11)] 7).wf1 ∧
    ((∃ pf t2 tape2,
      KnowledgeProof.prove (fun _ _ => (1 : ZMod 11)) (MultiCommitGens.mk 1 [(4 : ZMod 11)] 7)
          [] [] (3 : ZMod 11) 5
        = some (pf, commitSVal (3 : ZMod 11) 5 (MultiCommitGens.mk 1 [(4 : ZMod 11)] 7), t2, tape2) ∧
      KnowledgeProof.verify (fun _ _ => (1 : ZMod 11)) (MultiCommitGens.mk 1 [(4 : ZMod 11)] 7)
          pf [] (commitSVal (3 : ZMod 11) 5 (MultiCommitGens.mk 1 [(4 : ZMod 11)] 7))
        = some (Except.ok t2)) ∧
    (∀ (pf : KnowledgeProof (ZMod 11) (ZMod 11)) (C : ZMod 11) (tv : Tr (ZMod 11) (ZMod 11)),
      KnowledgeProof.verify (fun _ _ => (1 : ZMod 11)) (MultiCommitGens.mk 1 [(4 : ZMod 11)] 7)
          pf tv C
        = (if commitSVal pf.z1 pf.z2 (MultiCommitGens.mk 1 [(4 : ZMod 11)] 7)
              = (challengeScalar (fun _ _ => (1 : ZMod 11)) "c" (appendPoint "alpha" pf.alpha
                  (appendPoint "C" C
                    (appendMessage "protocol-name" "knowledge proof" tv)))).1 • C
                + pf.alpha
           then some (Except.ok ((challengeScalar (fun _ _ => (1 : ZMod 11)) "c"
                  (appendPoint "alpha" pf.alpha
                    (appendPoint "C" C
                      (appendMessage "protocol-name" "knowledge proof" tv)))).2))
           else some (Except.error ProofVerifyError.internalError)))) :=
  ⟨by decide,
   knowledgeProof_prove_verify_ok (fun _ _ => (1 : ZMod 11))
     (MultiCommitGens.mk 1 [(4 : ZMod 11)] 7) (by decide) (3 : ZMod 11) 5 [] []⟩

/-- C7: for every x, y, and blinds with z = x * y, ProductProof::prove then
verify succeeds against (Com(x; rX), Com(y; rY), Com(z; rZ)); and the
verifier accepts exactly the conjunction of the three linear equations, the
third using the committed X itself as the base. -/
theorem productProof_prove_verify_ok (rho : Tr F Grp → String → F)
    (gens_n : MultiCommitGens Grp) (hg : gens_n.wf1)
    (x rX y rY z rZ : F) (hz : z = x * y) (t : Tr F Grp) (tape : RandomTape F Grp) :
    (∃ pf t2 tape2,
      ProductProof.prove rho gens_n t tape x rX y rY z rZ
        = some (pf, commitSVal x rX gens_n, commitSVal y rY gens_n,
            commitSVal z rZ gens_n, t2, tape2) ∧
      ProductProof.verify rho gens_n pf t (commitSVal x rX gens_n)
          (commitSVal y rY gens_n) (commitSVal z rZ gens_n)
        = some (Except.ok t2)) ∧
    (∀ (pf : ProductProof F Grp) (X Y Z : Grp) (tv : Tr F Grp),
      (∃ t2, ProductProof.verify rho gens_n pf tv X Y Z = some (Except.ok t2)) ↔
        (pf.alpha + (challengeScalar rho "c" (appendPoint "delta" pf.delta
            (appendPoint "beta" pf.beta (appendPoint "alpha" pf.alpha
              (appendPoint "Z" Z (appendPoint "Y" Y (appendPoint "X" X
                (appendMessage "protocol-name" "product proof" tv)))))))).1 • X
            = commitSVal pf.z.1 pf.z.2.1 gens_n) ∧
        (pf.beta + (challengeScalar rho "c" (appendPoint "delta" pf.delta
            (appendPoint "beta" pf.beta (appendPoint "alpha" pf.alpha
              (appendPoint "Z" Z (appendPoint "Y" Y (appendPoint "X" X
                (appendMessage "protocol-name" "product proof" tv)))))))).1 • Y
            = commitSVal pf.z.2.2.1 pf.z.2.2.2.1 gens_n) ∧
        (pf.delta + (challengeScalar rho "c" (appendPoint "delta" pf.delta
            (appendPoint "beta" pf.beta (appendPoint "alpha" pf.alpha
              (appendPoint "Z" Z (appendPoint "Y" Y (appendPoint "X" X
                (appendMessage "protocol-name" "product proof" tv)))))))).1 • Z
            = pf.z.2.2.1 • X + pf.z.2.2.2.2 • gens_n.h)) := by
  constructor
  · obtain ⟨pf, t2, tape2, hp, hv⟩ := ProductProof.product_complete rho hg x rX y rY z rZ hz t tape
    exact ⟨pf, t2, tape2, hp, hv _ _ _ rfl rfl rfl⟩
  · intro pf X Y Z tv
    have hd : ∀ (b3v b5v : F),
        commitScalar b3v b5v { n := 1, G := [X], h := gens_n.h }
          = some (b3v • X + b5v • gens_n.h) := by
      intro b3v b5v
      simp [commitScalar, passert]
    simp only [ProductProof.verify, ProductProof.check_equality, commitScalar_wf hg,
      hd, obind_some, OE.lift_some, OE.bind_ok]
    by_cases h1 : pf.alpha + (challengeScalar rho "c" (appendPoint "delta" pf.delta
        (appendPoint "beta" pf.beta (appendPoint "alpha" pf.alpha
          (appendPoint "Z" Z (appendPoint "Y" Y (appendPoint "X" X
            (appendMessage "protocol-name" "product proof" tv)))))))).1 • X
        = commitSVal pf.z.1 pf.z.2.1 gens_n
    · by_cases h2 : pf.beta + (challengeScalar rho "c" (appendPoint "delta" pf.delta
          (appendPoint "beta" pf.beta (appendPoint "alpha" pf.alpha
            (appendPoint "Z" Z (appendPoint "Y" Y (appendPoint "X" X
              (appendMessage "protocol-name" "product proof" tv)))))))).1 • Y
          = commitSVal pf.z.2.2.1 pf.z.2.2.2.1 gens_n
      · by_cases h3 : pf.delta + (challengeScalar rho "c" (appendPoint "delta" pf.delta
            (appendPoint "beta" pf.beta (appendPoint "alpha" pf.alpha
              (appendPoint "Z" Z (appendPoint "Y" Y (appendPoint "X" X
                (appendMessage "protocol-name" "product proof" tv)))))))).1 • Z
            = pf.z.2.2.1 • X + pf.z.2.2.2.2 • gens_n.h
        · simp [h1, h2, h3]
        · simp [h1, h2, h3]
      · simp [h1, h2]
    · simp [h1]

/-- C7 witness. -/
theorem productProof_prove_verify_ok_witness :
    ((3 : ZMod 11) * 4 = 3 * 4) ∧
    ((∃ pf t2 tape2,
      ProductProof.prove (fun _ _ => (1 : ZMod 11)) (MultiCommitGens.mk 1 [(4 : ZMod 11)] 7)
          [] [] 3 2 4 5 (3 * 4) 6
        = some (pf, commitSVal (3 : ZMod 11) 2 (MultiCommitGens.mk 1 [(4 : ZMod 11)] 7),
            commitSVal (4 : ZMod 11) 5 (MultiCommitGens.mk 1 [(4 : ZMod 11)] 7),
            commitSVal ((3 : ZMod 11) * 4) 6 (MultiCommitGens.mk 1 [(4 : ZMod 11)] 7),
            t2, tape2) ∧
      ProductProof.verify (fun _ _ => (1 : ZMod 11)) (MultiCommitGens.mk 1 [(4 : ZMod 11)] 7)
          pf [] (commitSVal (3 : ZMod 11) 2 (MultiCommitGens.mk 1 [(4 : ZMod 11)] 7))
          (commitSVal (4 : ZMod 11) 5 (MultiCommitGens.mk 1 [(4 : ZMod 11)] 7))
          (commitSVal ((3 : ZMod 11) * 4) 6 (MultiCommitGens.mk 1 [(4 : ZMod 11)] 7))
        = some (Except.ok t2)) ∧
    (∀ (pf : ProductProof (ZMod 11) (ZMod 11)) (X Y Z : ZMod 11)
        (tv : Tr (ZMod 11) (ZMod 11)),
      (∃ t2, ProductProof.verify (fun _ _ => (1 : ZMod 11))
          (MultiCommitGens.mk 1 [(4 : ZMod 11)] 7) pf tv X Y Z = some (Except.ok t2)) ↔
        (pf.alpha + (challengeScalar (fun _ _ => (1 : ZMod 11)) "c" (appendPoint "delta" pf.delta
            (appendPoint "beta" pf.beta (appendPoint "alpha" pf.alpha
              (appendPoint "Z" Z (appendPoint "Y" Y (appendPoint "X" X
                (appendMessage "protocol-name" "product proof" tv)))))))).1 • X
            = commitSVal pf.z.1 pf.z.2.1 (MultiCommitGens.mk 1 [(4 : ZMod 11)] 7)) ∧
        (pf.beta + (challengeScalar (fun _ _ => (1 : ZMod 11)) "c" (appendPoint "delta" pf.delta
            (appendPoint "beta" pf.beta (appendPoint "alpha" pf.alpha
              (appendPoint "Z" Z (appendPoint "Y" Y (appendPoint "X" X
                (appendMessage "protocol-name" "product proof" tv)))))))).1 • Y
            = commitSVal pf.z.2.2.1 pf.z.2.2.2.1 (MultiCommitGens.mk 1 [(4 : ZMod 11)] 7)) ∧
        (pf.delta + (challengeScalar (fun _ _ => (1 : ZMod 11)) "c" (appendPoint "delta" pf.delta
            (appendPoint "beta" pf.beta (appendPoint "alpha" pf.alpha
              (appendPoint "Z" Z (appendPoint "Y" Y (appendPoint "X" X
                (appendMessage "protocol-name" "product proof" tv)))))))).1 • Z
            = pf.z.2.2.1 • X + pf.z.2.2.2.2 • (7 : ZMod 11)))) :=
  ⟨rfl,
   productProof_prove_verify_ok (fun _ _ => (1 : ZMod 11))
     (MultiCommitGens.mk 1 [(4 : ZMod 11)] 7) (by decide) 3 2 4 5 (3 * 4) 6 rfl [] []⟩

/-- C5: with y the dot product of a and x and matching generator sizes, the
linear DotProductProof and the logarithmic DotProductProofLog both prove and
verify successfully (the log variant for a power-of-two length, under the
generators of DotProductProofGens::new, with nonzero Bullet challenges). -/
theorem dotProduct_linear_and_log_complete (rho : Tr F Grp → String → F)
    (hrho : ∀ s : Tr F Grp, rho s "u" ≠ 0)
    (gensOf : String → Nat → Grp) (label : String)
    (gens_1 gens_n : MultiCommitGens Grp) (h1 : gens_1.wf1) (k : Nat)
    (x_vec : List F) (blind_x : F) (a_vec : List F) (y blind_y : F)
    (hx : x_vec.length = 2 ^ k) (hlen : x_vec.length = a_vec.length)
    (hn : gens_n.n = a_vec.length) (hy : y = dotF a_vec x_vec)
    (t : Tr F Grp) (tape : RandomTape F Grp) :
    (∃ pf t2 tape2,
      DotProductProof.prove rho gens_1 gens_n t tape x_vec blind_x a_vec y blind_y
        = some (pf, commitVVal x_vec blind_x gens_n, commitSVal y blind_y gens_1,
            t2, tape2) ∧
      DotProductProof.verify rho gens_1 gens_n pf t a_vec
          (commitVVal x_vec blind_x gens_n) (commitSVal y blind_y gens_1)
        = some (Except.ok t2)) ∧
    (∃ gens pf t2 tape2,
      DotProductProofGens.new gensOf x_vec.length label = some gens ∧
      DotProductProofLog.prove rho gens t tape x_vec blind_x a_vec y blind_y
        = some (pf, commitVVal x_vec blind_x gens.gens_n,
            commitSVal y blind_y gens.gens_1, t2, tape2) ∧
      DotProductProofLog.verify rho x_vec.length gens pf t a_vec
          (commitVVal x_vec blind_x gens.gens_n) (commitSVal y blind_y gens.gens_1)
        = some (Except.ok t2)) := by
  constructor
  · obtain ⟨pf, t2, tape2, hp, hv⟩ :=
      DotProductProof.dot_complete rho h1 x_vec blind_x a_vec y blind_y hlen hn hy t tape
    exact ⟨pf, t2, tape2, hp, hv _ _ rfl rfl⟩
  · obtain ⟨gens, hnew, hgn0, hgnn, hgnG, hg1wf, hgh⟩ :=
      DotProductProofGens.dp_gens_new_spec gensOf x_vec.length label
    obtain ⟨pf, t2, tape2, hp, hv⟩ :=
      DotProductProofLog.log_complete rho hrho k hg1wf hgh x_vec blind_x a_vec y blind_y
        hx hlen (by rw [hgnn, hlen]) (by rw [hgnG]) hgn0 hy t tape
    exact ⟨gens, pf, t2, tape2, hnew, hp, hv⟩

/-- C5 witness (length 1, so the Bullet reduction has zero rounds). -/
theorem dotProduct_linear_and_log_complete_witness :
    (∃ pf t2 tape2,
      DotProductProof.prove (fun _ _ => (1 : ZMod 11)) (MultiCommitGens.mk 1 [(4 : ZMod 11)] 7)
          (MultiCommitGens.mk 1 [(9 : ZMod 11)] 7) [] [] [(3 : ZMod 11)] 1 [2] 6 5
        = some (pf, commitVVal [(3 : ZMod 11)] 1 (MultiCommitGens.mk 1 [(9 : ZMod 11)] 7),
            commitSVal (6 : ZMod 11) 5 (MultiCommitGens.mk 1 [(4 : ZMod 11)] 7),
            t2, tape2) ∧
      DotProductProof.verify (fun _ _ => (1 : ZMod 11)) (MultiCommitGens.mk 1 [(4 : ZMod 11)] 7)
          (MultiCommitGens.mk 1 [(9 : ZMod 11)] 7) pf [] [2]
          (commitVVal [(3 : ZMod 11)] 1 (MultiCommitGens.mk 1 [(9 : ZMod 11)] 7))
          (commitSVal (6 : ZMod 11) 5 (MultiCommitGens.mk 1 [(4 : ZMod 11)] 7))
        = some (Except.ok t2)) ∧
    (∃ gens pf t2 tape2,
      DotProductProofGens.new (fun _ i => (i : ZMod 11) + 2) [(3 : ZMod 11)].length "t"
        = some gens ∧
      DotProductProofLog.prove (fun _ _ => (1 : ZMod 11)) gens [] [] [(3 : ZMod 11)] 1 [2] 6 5
        = some (pf, commitVVal [(3 : ZMod 11)] 1 gens.gens_n,
            commitSVal (6 : ZMod 11) 5 gens.gens_1, t2, tape2) ∧
      DotProductProofLog.verify (fun _ _ => (1 : ZMod 11)) [(3 : ZMod 11)].length gens pf [] [2]
          (commitVVal [(3 : ZMod 11)] 1 gens.gens_n)
          (commitSVal (6 : ZMod 11) 5 gens.gens_1)
        = some (Except.ok t2)) :=
  dotProduct_linear_and_log_complete (fun _ _ => (1 : ZMod 11)) (fun _ => one_ne_zero)
    (fun _ i => (i : ZMod 11) + 2) "t"
    (MultiCommitGens.mk 1 [(4 : ZMod 11)] 7) (MultiCommitGens.mk 1 [(9 : ZMod 11)] 7)
    (by decide) 0 [(3 : ZMod 11)] 1 [2] 6 5
    (by decide) (by decide) (by decide) (by decide) [] []

/-- C2: a concrete adversarial proof object on which the final closing
equation of DotProductProofLog::verify fails: the redundant assert_eq fires
and the verifier panics (none) instead of returning the opaque
VerificationFailed error. -/
theorem dotProductProofLog_verify_panics_on_final_check :
    DotProductProofLog.verify (fun _ _ => (1 : ZMod 11)) 1
        (DotProductProofGens.mk 1 (MultiCommitGens.mk 1 [(9 : ZMod 11)] 7)
          (MultiCommitGens.mk 1 [(4 : ZMod 11)] 7))
        (DotProductProofLog.mk (BulletReductionProof.mk [] []) 0 0 0 1)
        [] [(0 : ZMod 11)] 0 0
      = none := by
  decide

/-- C3: evaluating DotProductProofLog::prove on a concrete input and reading
the consumed random-tape labels (most recent first): the two closing blinds
were drawn under the labels d, r_delta, r_delta, that is, r_beta was drawn
under the label "r_delta", not "r_beta". -/
theorem dotProductProofLog_blind_label_collision :
    (DotProductProofLog.prove (fun _ _ => (1 : ZMod 11))
        (DotProductProofGens.mk 1 (MultiCommitGens.mk 1 [(9 : ZMod 11)] 7)
          (MultiCommitGens.mk 1 [(4 : ZMod 11)] 7))
        [] [] [(3 : ZMod 11)] 1 [2] 6 5).map (fun r => r.2.2.2.2)
      = some [TEntry.squeeze "r_delta", TEntry.squeeze "r_delta", TEntry.squeeze "d"] := by
  decide

theorem evalML_congr (p : List F) (T U : Nat → F)
    (h : ∀ i, i < 2 ^ p.length → T i = U i) : evalML p T = evalML p U := by
  induction p generalizing T U with
  | nil =>
    exact h 0 (by norm_num)
  | cons r rs ih =>
    simp only [evalML]
    apply ih
    intro i hi
    have h1 : i < 2 ^ (r :: rs).length := by
      have : (2 : Nat) ^ rs.length < 2 ^ (rs.length + 1) := Nat.pow_lt_pow_succ (by norm_num)
      simp only [List.length_cons]
      omega
    have h2 : i + 2 ^ rs.length < 2 ^ (r :: rs).length := by
      simp only [List.length_cons, Nat.pow_succ]
      omega
    simp only [foldTop, h i h1, h _ h2]

theorem evalML_linear (p : List F) (al be : F) (T U : Nat → F) :
    evalML p (fun i => al * T i + be * U i)
      = al * evalML p T + be * evalML p U := by
  induction p generalizing T U with
  | nil => simp [evalML]
  | cons r rs ih =>
    simp only [evalML]
    rw [show foldTop r (fun i => al * T i + be * U i) (2 ^ rs.length)
        = fun i => al * foldTop r T (2 ^ rs.length) i + be * foldTop r U (2 ^ rs.length) i by
      funext i
      simp only [foldTop]
      ring]
    exact ih _ _

theorem evalML_smul (p : List F) (c : F) (T : Nat → F) :
    evalML p (fun i => c * T i) = c * evalML p T := by
  simpa using evalML_linear p c 0 T T

theorem chi_lt {rs : List F} {r : F} {i : Nat} (h : i < 2 ^ rs.length) :
    chi (r :: rs) i = (1 - r) * chi rs i := by
  simp only [chi, if_pos h, Nat.mod_eq_of_lt h]

theorem chi_ge {rs : List F} {r : F} {i : Nat} (h : i < 2 ^ rs.length) :
    chi (r :: rs) (2 ^ rs.length + i) = r * chi rs i := by
  have h1 : ¬ (2 ^ rs.length + i < 2 ^ rs.length) := by omega
  simp only [chi, if_neg h1, Nat.add_mod_left, Nat.mod_eq_of_lt h]

theorem evalML_chi_sum (p : List F) (T : Nat → F) :
    evalML p T = ∑ i ∈ Finset.range (2 ^ p.length), chi p i * T i := by
  induction p generalizing T with
  | nil => simp [evalML, chi]
  | cons r rs ih =>
    simp only [evalML, ih]
    have hsplit : (2 : Nat) ^ (r :: rs).length = 2 ^ rs.length + 2 ^ rs.length := by
      simp [Nat.pow_succ, Nat.mul_two]
    rw [hsplit, Finset.sum_range_add]
    rw [← Finset.sum_add_distrib]
    apply Finset.sum_congr rfl
    intro i hi
    have hi2 : i < 2 ^ rs.length := Finset.mem_range.mp hi
    rw [chi_lt hi2, chi_ge hi2, foldTop]
    rw [Nat.add_comm (2 ^ rs.length) i]
    ring

theorem evalML_chi_eq (rx tau : List F) (hlen : rx.length = tau.length) :
    evalML rx (chi tau)
      = (List.zipWith (fun r ti => r * ti + (1 - r) * (1 - ti)) rx tau).prod := by
  induction rx generalizing tau with
  | nil =>
    obtain rfl : tau = [] := List.length_eq_zero.mp (by simpa using hlen.symm)
    simp [evalML, chi]
  | cons r rs ih =>
    match tau, hlen with
    | t :: ts, hlen =>
      have hts : rs.length = ts.length := by simpa using hlen
      simp only [evalML, List.zipWith_cons_cons, List.prod_cons]
      have hfold : evalML rs (foldTop r (chi (t :: ts)) (2 ^ rs.length))
          = evalML rs (fun i => (r * t + (1 - r) * (1 - t)) * chi ts i) := by
        apply evalML_congr
        intro i hi
        have hi2 : i < 2 ^ ts.length := by rw [← hts]; exact hi
        simp only [foldTop]
        rw [hts, chi_lt hi2, Nat.add_comm i (2 ^ ts.length), chi_ge hi2]
        ring
      rw [hfold, evalML_smul, ih ts hts]

theorem list_range_map_sum (f : Nat → F) (n : Nat) :
    ((List.range n).map f).sum = ∑ i ∈ Finset.range n, f i := by
  induction n with
  | zero => simp
  | succ n ih => simp [List.range_succ, ih, Finset.sum_range_succ]

/-- Exchanging a Finset sum over indices with a list sum over entries. -/
theorem sum_range_list_sum_comm {alpha : Type} (l : List alpha) (f : Nat → alpha → F)
    (n : Nat) :
    ∑ i ∈ Finset.range n, (l.map (f i)).sum
      = (l.map (fun e => ∑ i ∈ Finset.range n, f i e)).sum := by
  induction l with
  | nil => simp
  | cons e l ih =>
    simp only [List.map_cons, List.sum_cons, Finset.sum_add_distrib, ih]

/-- The multilinear extension of the matrix-vector product table at rx is the
per-entry sum, provided every row index is in range. -/
theorem evalML_sparseMatVec (M : List (Nat × Nat × F)) (p : List F) (z : Nat → F)
    (hrows : ∀ e ∈ M, e.1 < 2 ^ p.length) :
    evalML p (sparseMatVec M z) = (M.map (entryContrib p z)).sum := by
  rw [evalML_chi_sum]
  have hswap : ∑ i ∈ Finset.range (2 ^ p.length), chi p i * sparseMatVec M z i
      = (M.map (fun e => ∑ i ∈ Finset.range (2 ^ p.length),
          chi p i * (if e.1 = i then e.2.2 * z e.2.1 else 0))).sum := by
    rw [← sum_range_list_sum_comm]
    apply Finset.sum_congr rfl
    intro i hi
    rw [sparseMatVec, ← List.sum_map_mul_left]
  rw [hswap]
  congr 1
  apply List.map_congr_left
  intro e he
  have hin : e.1 ∈ Finset.range (2 ^ p.length) := Finset.mem_range.mpr (hrows e he)
  rw [show (fun i => chi p i * (if e.1 = i then e.2.2 * z e.2.1 else 0))
      = fun i => if e.1 = i then chi p i * (e.2.2 * z e.2.1) else 0 by
    funext i
    by_cases hie : e.1 = i <;> simp [hie]]
  rw [Finset.sum_ite_eq _ e.1 (fun i => chi p i * (e.2.2 * z e.2.1))]
  rw [if_pos hin, entryContrib]
  ring

/-- The pairing of the padded assignment with the sparse evaluation table at
row weights chi rx is the same per-entry sum, provided the row bound is the
table size and every column index is in range. -/
theorem zsum_sparseEvalTable (M : List (Nat × Nat × F)) (rx : List F) (z : Nat → F)
    (n2 : Nat) (hrows : ∀ e ∈ M, e.1 < 2 ^ rx.length)
    (hcols : ∀ e ∈ M, e.2.1 < n2) :
    ∑ y ∈ Finset.range n2, z y * sparseEvalTable M (2 ^ rx.length) (chi rx) y
      = (M.map (entryContrib rx z)).sum := by
  have hswap : ∑ y ∈ Finset.range n2, z y * sparseEvalTable M (2 ^ rx.length) (chi rx) y
      = (M.map (fun e => ∑ y ∈ Finset.range n2,
          z y * (if e.2.1 = y ∧ e.1 < 2 ^ rx.length then chi rx e.1 * e.2.2 else 0))).sum := by
    rw [← sum_range_list_sum_comm]
    apply Finset.sum_congr rfl
    intro y hy
    rw [sparseEvalTable, ← List.sum_map_mul_left]
  rw [hswap]
  congr 1
  apply List.map_congr_left
  intro e he
  have hin : e.2.1 ∈ Finset.range n2 := Finset.mem_range.mpr (hcols e he)
  rw [show (fun y => z y * (if e.2.1 = y ∧ e.1 < 2 ^ rx.length then chi rx e.1 * e.2.2 else 0))
      = fun y => if e.2.1 = y then z y * chi rx e.1 * e.2.2 else 0 by
    funext y
    by_cases hie : e.2.1 = y <;> simp [hie, hrows e he, mul_assoc]]
  rw [Finset.sum_ite_eq _ e.2.1 (fun y => z y * chi rx e.1 * e.2.2)]
  rw [if_pos hin, entryContrib]
  ring

/-- The multilinear extension of the eval table at ry equals the sparse
matrix extension at (rx, ry), for an in-bounds matrix. -/
theorem evalML_sparseEvalTable (M : List (Nat × Nat × F)) (rx ry : List F)
    (hrows : ∀ e ∈ M, e.1 < 2 ^ rx.length)
    (hcols : ∀ e ∈ M, e.2.1 < 2 ^ ry.length) :
    evalML ry (sparseEvalTable M (2 ^ rx.length) (chi rx))
      = sparseMatEval M rx ry := by
  rw [evalML_chi_sum]
  have hswap : ∑ y ∈ Finset.range (2 ^ ry.length),
        chi ry y * sparseEvalTable M (2 ^ rx.length) (chi rx) y
      = (M.map (fun e => ∑ y ∈ Finset.range (2 ^ ry.length),
          chi ry y * (if e.2.1 = y ∧ e.1 < 2 ^ rx.length then chi rx e.1 * e.2.2 else 0))).sum := by
    rw [← sum_range_list_sum_comm]
    apply Finset.sum_congr rfl
    intro y hy
    rw [sparseEvalTable, ← List.sum_map_mul_left]
  rw [hswap, sparseMatEval]
  congr 1
  apply List.map_congr_left
  intro e he
  have hin : e.2.1 ∈ Finset.range (2 ^ ry.length) := Finset.mem_range.mpr (hcols e he)
  rw [show (fun y => chi ry y * (if e.2.1 = y ∧ e.1 < 2 ^ rx.length then chi rx e.1 * e.2.2 else 0))
      = fun y => if e.2.1 = y then chi ry y * chi rx e.1 * e.2.2 else 0 by
    funext y
    by_cases hie : e.2.1 = y <;> simp [hie, hrows e he, mul_assoc]]
  rw [Finset.sum_ite_eq _ e.2.1 (fun y => chi ry y * chi rx e.1 * e.2.2)]
  rw [if_pos hin]
  ring

theorem replicate_getD (pad m : Nat) : (List.replicate pad (0 : F)).getD m 0 = 0 := by
  induction pad generalizing m with
  | zero => simp
  | succ p ih =>
    cases m with
    | zero => simp [List.replicate]
    | succ m => exact ih m

theorem rest_getD (input : List F) (pad i : Nat) :
    ((1 : F) :: (input ++ List.replicate pad 0)).getD i 0
      = ((1 : F) :: input).getD i 0 := by
  cases i with
  | zero => rfl
  | succ j =>
    show (input ++ List.replicate pad 0).getD j 0 = input.getD j 0
    by_cases hj : j < input.length
    · exact List.getD_append _ _ _ _ hj
    · rw [List.getD_append_right _ _ _ _ (by omega)]
      rw [show input.getD j 0 = 0 from List.getD_eq_default _ _ (by omega)]
      exact replicate_getD pad _

/-- Splitting the padded assignment: binding the top variable of z to r gives
the convex combination of the witness polynomial and the (1, inputs)
polynomial, the identity behind step 8 of the R1CS argument. -/
theorem evalML_z_decomp (vars input : List F) (r : F) (ry : List F)
    (hvars : vars.length = 2 ^ ry.length) :
    evalML (r :: ry) (zfun vars input)
      = (1 - r) * evalML ry (fun i => vars.getD i 0)
        + r * evalML ry (fun i => ((1 : F) :: input).getD i 0) := by
  simp only [evalML]
  rw [evalML_congr ry _
    (fun i => (1 - r) * vars.getD i 0 + r * ((1 : F) :: input).getD i 0) ?agree]
  case agree =>
    intro i hi
    have hiv : i < vars.length := by omega
    simp only [foldTop, zfun, zlist]
    rw [List.getD_append _ _ _ _ hiv]
    rw [List.getD_append_right _ _ _ _ (by omega)]
    rw [hvars, Nat.add_sub_cancel]
    rw [rest_getD]
  exact evalML_linear ry (1 - r) r _ _

/-- The (1, inputs) tail of z agrees with the sparse polynomial the verifier
evaluates: constant term one at index 0 and input i at index i + 1. -/
theorem evalML_one_input (input : List F) (ry : List F)
    (hk : input.length < 2 ^ ry.length) :
    evalML ry (fun i => ((1 : F) :: input).getD i 0)
      = SparsePolynomial.evaluate
          ((0, (1 : F)) :: (List.range input.length).map (fun i => (i + 1, input.getD i 0)))
          ry := by
  rw [evalML_chi_sum]
  rw [SparsePolynomial.evaluate]
  simp only [List.map_cons, List.map_map, List.sum_cons]
  rw [show ((fun e : Nat × F => e.2 * chi ry e.1) ∘ fun i => (i + 1, input.getD i 0))
      = fun i => input.getD i 0 * chi ry (i + 1) from rfl]
  rw [list_range_map_sum]
  rw [show ∑ i ∈ Finset.range (2 ^ ry.length), chi ry i * ((1 : F) :: input).getD i 0
      = ∑ i ∈ Finset.range (1 + input.length), chi ry i * ((1 : F) :: input).getD i 0 by
    symm
    apply Finset.sum_subset
    · intro x hx
      rw [Finset.mem_range] at *
      omega
    · intro x hx hnx
      rw [Finset.mem_range] at hnx
      rw [List.getD_eq_default _ _ (by simp; omega)]
      ring]
  rw [Finset.sum_range_add]
  simp only [Finset.range_one, Finset.sum_singleton]
  rw [show ((1 : F) :: input).getD 0 0 = 1 from rfl]
  rw [mul_comm]
  congr 1
  apply Finset.sum_congr rfl
  intro i hi
  rw [show ((1 : F) :: input).getD (1 + i) 0 = input.getD i 0 by
    rw [Nat.add_comm 1 i]; rfl]
  rw [Nat.add_comm 1 i]
  ring

theorem quad_sc_sum (T U : Nat → F) (half : Nat) :
    dotF (a_sc_vec 2) (quadCoeffs T U half)
      = ∑ i ∈ Finset.range (half + half), T i * U i := by
  show (2 : F) * _ + (1 * _ + (1 * _ + 0))
      = ∑ i ∈ Finset.range (half + half), T i * U i
  rw [Finset.sum_range_add]
  rw [Finset.mul_sum, one_mul, one_mul, add_zero]
  rw [← Finset.sum_add_distrib, ← Finset.sum_add_distrib, ← Finset.sum_add_distrib]
  apply Finset.sum_congr rfl
  intro i _
  rw [Nat.add_comm half i]
  ring

theorem quad_eval_sum (T U : Nat → F) (half : Nat) (r : F) :
    dotF (quadCoeffs T U half) (a_eval_vec 2 r)
      = ∑ i ∈ Finset.range half, foldTop r T half i * foldTop r U half i := by
  show _ * r ^ 0 + (_ * r ^ 1 + (_ * r ^ 2 + 0))
      = ∑ i ∈ Finset.range half, foldTop r T half i * foldTop r U half i
  rw [Finset.sum_mul, Finset.sum_mul, Finset.sum_mul, add_zero]
  rw [← Finset.sum_add_distrib, ← Finset.sum_add_distrib]
  apply Finset.sum_congr rfl
  intro i _
  simp only [foldTop]
  ring

theorem cubic_sc_sum (A B C D : Nat → F) (half : Nat) :
    dotF (a_sc_vec 3) (cubicCoeffs A B C D half)
      = ∑ i ∈ Finset.range (half + half), A i * (B i * C i - D i) := by
  show (2 : F) * _ + (1 * _ + (1 * _ + (1 * _ + 0)))
      = ∑ i ∈ Finset.range (half + half), A i * (B i * C i - D i)
  rw [Finset.sum_range_add]
  rw [Finset.mul_sum, one_mul, one_mul, one_mul, add_zero]
  rw [← Finset.sum_add_distrib, ← Finset.sum_add_distrib, ← Finset.sum_add_distrib,
    ← Finset.sum_add_distrib]
  apply Finset.sum_congr rfl
  intro i _
  rw [Nat.add_comm half i]
  ring

theorem cubic_eval_sum (A B C D : Nat → F) (half : Nat) (r : F) :
    dotF (cubicCoeffs A B C D half) (a_eval_vec 3 r)
      = ∑ i ∈ Finset.range half,
          foldTop r A half i * (foldTop r B half i * foldTop r C half i
            - foldTop r D half i) := by
  show _ * r ^ 0 + (_ * r ^ 1 + (_ * r ^ 2 + (_ * r ^ 3 + 0)))
      = ∑ i ∈ Finset.range half, _
  rw [Finset.sum_mul, Finset.sum_mul, Finset.sum_mul, Finset.sum_mul, add_zero]
  rw [← Finset.sum_add_distrib, ← Finset.sum_add_distrib, ← Finset.sum_add_distrib]
  apply Finset.sum_congr rfl
  intro i _
  simp only [foldTop]
  ring

theorem dotF_combine (w0 w1 : F) (x d a : List F) (h : x.length = d.length) :
    dotF (List.zipWith (fun p q => w0 * p + w1 * q) x d) a
      = w0 * dotF x a + w1 * dotF d a := by
  induction x generalizing d a with
  | nil =>
    cases d with
    | nil => simp [dotF]
    | cons _ _ => simp at h
  | cons xi xs ih =>
    cases d with
    | nil => simp at h
    | cons di ds =>
      cases a with
      | nil => simp [dotF]
      | cons ai as_ =>
        simp only [List.zipWith_cons_cons, dotF, List.sum_cons] at *
        rw [ih ds as_ (by simpa using h)]
        ring

theorem a_sc_vec_length (d : Nat) : (a_sc_vec d : List F).length = d + 1 := by
  simp [a_sc_vec]

theorem a_eval_vec_length (d : Nat) (r : F) : (a_eval_vec d r).length = d + 1 := by
  simp [a_eval_vec]

/-- Completeness of one zero-knowledge sum-check round. -/
theorem sc_round_complete (rho : Tr F Grp → String → F)
    {gens_1 gens_m : MultiCommitGens Grp} (h1 : gens_1.wf1) (d : Nat)
    (hd : gens_m.n = d + 1) (coeffs : List F) (hc : coeffs.length = d + 1)
    (claim blind : F) (hclaim : claim = dotF (a_sc_vec d) coeffs)
    (t : Tr F Grp) (tape : RandomTape F Grp) :
    ∃ rnd r_j blind_eval t2 tape2,
      sc_round_prove rho gens_1 gens_m d coeffs claim blind t tape
        = some (rnd, r_j, dotF coeffs (a_eval_vec d r_j), blind_eval, t2, tape2) ∧
      rnd.comm_eval = commitSVal (dotF coeffs (a_eval_vec d r_j)) blind_eval gens_1 ∧
      ∀ C, C = commitSVal claim blind gens_1 →
        sc_round_verify rho d gens_1 gens_m C rnd t = some (Except.ok (r_j, t2)) := by
  have hcm : commitVec coeffs (rho tape "blind_poly") gens_m
      = some (commitVVal coeffs (rho tape "blind_poly") gens_m) :=
    commitVec_len (by omega) _
  simp only [sc_round_prove, RandomTape.random_scalar, challengeScalar, challengeVector,
    hcm, commitScalar_wf h1, obind_some, List.getD_cons_zero, List.getD_cons_succ]
  generalize hbp : rho tape "blind_poly" = bp
  generalize hbe : rho (TEntry.squeeze "blind_poly" :: tape) "blind_eval" = be
  generalize htape2 : (TEntry.squeeze "blind_eval" :: TEntry.squeeze "blind_poly" :: tape
      : Tr F Grp) = tapeD
  generalize ht1 : appendPoint "comm_poly" (commitVVal coeffs bp gens_m) t = t1
  generalize hr : rho t1 "challenge_nextround" = r_j
  generalize htA : appendPoint "comm_eval"
      (commitSVal (dotF coeffs (a_eval_vec d r_j)) be gens_1)
      (appendPoint "comm_claim_per_round" (commitSVal claim blind gens_1)
        (TEntry.squeeze "challenge_nextround" :: t1)) = tA
  generalize hw0 : rho tA "combine_two_claims_to_one" = w0
  generalize hw1 : rho (TEntry.squeeze "combine_two_claims_to_one" :: tA)
      "combine_two_claims_to_one" = w1
  have hlen2 : coeffs.length
      = (List.zipWith (fun p q => w0 * p + w1 * q) (a_sc_vec d) (a_eval_vec d r_j)
          : List F).length := by
    rw [List.length_zipWith, a_sc_vec_length, a_eval_vec_length]
    omega
  have hy : w0 * claim + w1 * dotF coeffs (a_eval_vec d r_j)
      = dotF (List.zipWith (fun p q => w0 * p + w1 * q) (a_sc_vec d) (a_eval_vec d r_j))
          coeffs := by
    rw [dotF_combine w0 w1 _ _ _ (by rw [a_sc_vec_length, a_eval_vec_length])]
    rw [← hclaim, dotF_comm coeffs]
  obtain ⟨pf, t2, tape2, hp, hv⟩ :=
    DotProductProof.dot_complete rho h1 coeffs bp
      (List.zipWith (fun p q => w0 * p + w1 * q) (a_sc_vec d) (a_eval_vec d r_j))
      (w0 * claim + w1 * dotF coeffs (a_eval_vec d r_j))
      (w0 * blind + w1 * be)
      hlen2
      (show gens_m.n = (List.zipWith (fun p q => w0 * p + w1 * q) (a_sc_vec d)
          (a_eval_vec d r_j) : List F).length by rw [← hlen2, hc]; exact hd)
      hy
      (TEntry.squeeze "combine_two_claims_to_one" :: TEntry.squeeze "combine_two_claims_to_one"
        :: tA)
      tapeD
  rw [hp]
  refine ⟨_, r_j, be, t2, tape2, rfl, rfl, ?_⟩
  intro C hC
  subst hC
  simp only [sc_round_verify, challengeScalar, challengeVector,
    List.getD_cons_zero, List.getD_cons_succ, ht1, hr, htA, hw0, hw1]
  have htarget : w0 • commitSVal claim blind gens_1
      + w1 • commitSVal (dotF coeffs (a_eval_vec d r_j)) be gens_1
      = commitSVal (w0 * claim + w1 * dotF coeffs (a_eval_vec d r_j))
          (w0 * blind + w1 * be) gens_1 := by
    rw [commitSVal_combine]
  rw [htarget]
  rw [hv _ _ rfl rfl]
  rfl

/-- Completeness of the quadratic zero-knowledge sum-check: when the claim is
the sum of the products over the cube, prove then verify succeeds, both
sides agree on the challenge point, and the verifier ends holding a
commitment to the product of the final folded table values under the final
blind of the prover. -/
theorem prove_quad_complete (rho : Tr F Grp → String → F)
    {gens_1 gens_3 : MultiCommitGens Grp} (h1 : gens_1.wf1) (h3 : gens_3.n = 3) :
    ∀ (num_rounds : Nat) (claim blind : F) (T U : Nat → F)
      (t : Tr F Grp) (tape : RandomTape F Grp),
    claim = ∑ i ∈ Finset.range (2 ^ num_rounds), T i * U i →
    ∃ pf rs blind2 t2 tape2,
      prove_quad rho gens_1 gens_3 claim blind num_rounds T U t tape
        = some (pf, rs, (evalML rs T, evalML rs U), blind2, t2, tape2) ∧
      rs.length = num_rounds ∧
      ZKSumcheckInstanceProof.verify pf rho (commitSVal claim blind gens_1)
          num_rounds 2 gens_1 gens_3 t
        = some (Except.ok (commitSVal (evalML rs T * evalML rs U) blind2 gens_1,
            rs, t2)) := by
  intro num_rounds
  induction num_rounds with
  | zero =>
    intro claim blind T U t tape hclaim
    rw [show claim = T 0 * U 0 by rw [hclaim]; simp]
    exact ⟨ZKSumcheckInstanceProof.mk [], [], blind, t, tape, rfl, rfl, rfl⟩
  | succ nr ih =>
    intro claim blind T U t tape hclaim
    have hclaim2 : claim = dotF (a_sc_vec 2) (quadCoeffs T U (2 ^ nr)) := by
      rw [quad_sc_sum, hclaim]
      rw [show (2 : Nat) ^ (nr + 1) = 2 ^ nr + 2 ^ nr by rw [Nat.pow_succ]; omega]
    obtain ⟨rnd, r_j, be, t2, tape2, hprd, hce, hvr⟩ :=
      sc_round_complete rho h1 2 (by rw [h3]) (quadCoeffs T U (2 ^ nr)) rfl
        claim blind hclaim2 t tape
    obtain ⟨pfr, rs2, b2, t3, tape3, hrest, hlen2, hver2⟩ :=
      ih (dotF (quadCoeffs T U (2 ^ nr)) (a_eval_vec 2 r_j)) be
        (foldTop r_j T (2 ^ nr)) (foldTop r_j U (2 ^ nr)) t2 tape2
        (quad_eval_sum T U (2 ^ nr) r_j)
    have hT : evalML (r_j :: rs2) T = evalML rs2 (foldTop r_j T (2 ^ nr)) := by
      simp only [evalML, hlen2]
    have hU : evalML (r_j :: rs2) U = evalML rs2 (foldTop r_j U (2 ^ nr)) := by
      simp only [evalML, hlen2]
    refine ⟨ZKSumcheckInstanceProof.mk (rnd :: pfr.rounds), r_j :: rs2, b2, t3, tape3,
      ?_, by simpa using hlen2, ?_⟩
    · show prove_quad rho gens_1 gens_3 claim blind (nr + 1) T U t tape = _
      simp only [prove_quad, hprd, obind_some, hrest]
      rw [hT, hU]
    · show verify_sc_rounds rho 2 gens_1 gens_3 (nr + 1) (rnd :: pfr.rounds)
        (commitSVal claim blind gens_1) t = _
      simp only [verify_sc_rounds, hvr _ rfl, OE.bind_ok, hce]
      have hver2' := hver2
      rw [ZKSumcheckInstanceProof.verify] at hver2'
      rw [hver2']
      simp only [OE.bind_ok]
      rw [hT, hU]
      rfl

/-- Completeness of the cubic zero-knowledge sum-check with additive term:
when the claim is the sum of a * (b * c - d) over the cube, prove then
verify succeeds, both sides agree on the challenge point, and the verifier
ends holding a commitment to the combination of the final folded table
values under the final blind of the prover. -/
theorem prove_cubic_complete (rho : Tr F Grp → String → F)
    {gens_1 gens_4 : MultiCommitGens Grp} (h1 : gens_1.wf1) (h4 : gens_4.n = 4) :
    ∀ (num_rounds : Nat) (claim blind : F) (A B C D : Nat → F)
      (t : Tr F Grp) (tape : RandomTape F Grp),
    claim = ∑ i ∈ Finset.range (2 ^ num_rounds), A i * (B i * C i - D i) →
    ∃ pf rs blind2 t2 tape2,
      prove_cubic_with_additive_term rho gens_1 gens_4 claim blind num_rounds A B C D t tape
        = some (pf, rs, (evalML rs A, evalML rs B, evalML rs C, evalML rs D),
            blind2, t2, tape2) ∧
      rs.length = num_rounds ∧
      ZKSumcheckInstanceProof.verify pf rho (commitSVal claim blind gens_1)
          num_rounds 3 gens_1 gens_4 t
        = some (Except.ok (commitSVal
            (evalML rs A * (evalML rs B * evalML rs C - evalML rs D)) blind2 gens_1,
            rs, t2)) := by
  intro num_rounds
  induction num_rounds with
  | zero =>
    intro claim blind A B C D t tape hclaim
    rw [show claim = A 0 * (B 0 * C 0 - D 0) by rw [hclaim]; simp]
    exact ⟨ZKSumcheckInstanceProof.mk [], [], blind, t, tape, rfl, rfl, rfl⟩
  | succ nr ih =>
    intro claim blind A B C D t tape hclaim
    have hclaim2 : claim = dotF (a_sc_vec 3) (cubicCoeffs A B C D (2 ^ nr)) := by
      rw [cubic_sc_sum, hclaim]
      rw [show (2 : Nat) ^ (nr + 1) = 2 ^ nr + 2 ^ nr by rw [Nat.pow_succ]; omega]
    obtain ⟨rnd, r_j, be, t2, tape2, hprd, hce, hvr⟩ :=
      sc_round_complete rho h1 3 (by rw [h4]) (cubicCoeffs A B C D (2 ^ nr)) rfl
        claim blind hclaim2 t tape
    obtain ⟨pfr, rs2, b2, t3, tape3, hrest, hlen2, hver2⟩ :=
      ih (dotF (cubicCoeffs A B C D (2 ^ nr)) (a_eval_vec 3 r_j)) be
        (foldTop r_j A (2 ^ nr)) (foldTop r_j B (2 ^ nr))
        (foldTop r_j C (2 ^ nr)) (foldTop r_j D (2 ^ nr)) t2 tape2
        (cubic_eval_sum A B C D (2 ^ nr) r_j)
    have hA : evalML (r_j :: rs2) A = evalML rs2 (foldTop r_j A (2 ^ nr)) := by
      simp only [evalML, hlen2]
    have hB : evalML (r_j :: rs2) B = evalML rs2 (foldTop r_j B (2 ^ nr)) := by
      simp only [evalML, hlen2]
    have hC : evalML (r_j :: rs2) C = evalML rs2 (foldTop r_j C (2 ^ nr)) := by
      simp only [evalML, hlen2]
    have hD : evalML (r_j :: rs2) D = evalML rs2 (foldTop r_j D (2 ^ nr)) := by
      simp only [evalML, hlen2]
    refine ⟨ZKSumcheckInstanceProof.mk (rnd :: pfr.rounds), r_j :: rs2, b2, t3, tape3,
      ?_, by simpa using hlen2, ?_⟩
    · show prove_cubic_with_additive_term rho gens_1 gens_4 claim blind (nr + 1)
        A B C D t tape = _
      simp only [prove_cubic_with_additive_term, hprd, obind_some, hrest]
      rw [hA, hB, hC, hD]
    · show verify_sc_rounds rho 3 gens_1 gens_4 (nr + 1) (rnd :: pfr.rounds)
        (commitSVal claim blind gens_1) t = _
      simp only [verify_sc_rounds, hvr _ rfl, OE.bind_ok, hce]
      have hver2' := hver2
      rw [ZKSumcheckInstanceProof.verify] at hver2'
      rw [hver2']
      simp only [OE.bind_ok]
      rw [hA, hB, hC, hD]
      rfl

theorem zlist_length (vars input : List F) (h : input.length < vars.length) :
    (zlist vars input).length = 2 * vars.length := by
  simp only [zlist, List.length_append, List.length_cons, List.length_replicate]
  omega

/-- The verifier's tau-product over rx is exactly the multilinear eq
polynomial of tau evaluated at rx. -/
theorem taus_bound_prod_eq (rx tau : List F) (hlen : rx.length = tau.length) :
    taus_bound_prod rx tau = some (evalML rx (chi tau)) := by
  rw [taus_bound_prod, if_pos hlen.le, evalML_chi_eq rx tau hlen]

theorem evalML_linear3 (p : List F) (a b c : F) (T U V : Nat → F) :
    evalML p (fun i => a * T i + b * U i + c * V i)
      = a * evalML p T + b * evalML p U + c * evalML p V := by
  rw [show (fun i => a * T i + b * U i + c * V i)
      = fun i => a * T i + 1 * (fun j => b * U j + c * V j) i by
    funext i; simp; ring]
  rw [evalML_linear p a 1 T (fun j => b * U j + c * V j), evalML_linear p b c U V]
  ring

theorem sum_z_combine (z tA tB tC : Nat → F) (rA rB rC : F) (n : Nat) :
    ∑ i ∈ Finset.range n, z i * (rA * tA i + rB * tB i + rC * tC i)
      = rA * ∑ i ∈ Finset.range n, z i * tA i
        + rB * ∑ i ∈ Finset.range n, z i * tB i
        + rC * ∑ i ∈ Finset.range n, z i * tC i := by
  rw [Finset.mul_sum, Finset.mul_sum, Finset.mul_sum,
    ← Finset.sum_add_distrib, ← Finset.sum_add_distrib]
  exact Finset.sum_congr rfl (fun i _ => by ring)

theorem commitSVal_combine3 (w0 a ra w1 b rb w2 c rc : F) (g : MultiCommitGens Grp) :
    commitSVal (w0 * a + w1 * b + w2 * c) (w0 * ra + w1 * rb + w2 * rc) g
      = w0 • commitSVal a ra g + w1 • commitSVal b rb g + w2 • commitSVal c rc g := by
  simp only [commitSVal]
  module

/-- The verifier's expected phase-1 closing commitment in commitSVal form. -/
theorem expected1_eq (tc ab pb cz cb : F) (g : MultiCommitGens Grp) :
    tc • (commitSVal ab pb g - commitSVal cz cb g)
      = commitSVal ((ab - cz) * tc) (tc * (pb - cb)) g := by
  simp only [commitSVal]
  module

/-- The verifier's expected phase-2 closing commitment in commitSVal form. -/
theorem closing2_eq (abc ev be ie r0 : F) (g : MultiCommitGens Grp) :
    abc • ((1 - r0) • commitSVal ev be g + r0 • commitSVal ie 0 g)
      = commitSVal (((1 - r0) * ev + r0 * ie) * abc) (abc * ((1 - r0) * be)) g := by
  simp only [commitSVal]
  module

/-- The pairing of z with one weighted eval table recovers the multilinear
extension of the matrix-vector product at rx. -/
theorem zsum_evalML_link (M : List (Nat × Nat × F)) (rx : List F) (z : Nat → F)
    (m n2 : Nat) (hm : m = 2 ^ rx.length)
    (hrows : ∀ e ∈ M, e.1 < m) (hcols : ∀ e ∈ M, e.2.1 < n2) :
    ∑ y ∈ Finset.range n2, z y * sparseEvalTable M m (chi rx) y
      = evalML rx (sparseMatVec M z) := by
  subst hm
  rw [zsum_sparseEvalTable M rx z n2 hrows hcols, evalML_sparseMatVec M rx z hrows]

/-- The multilinear extension of one weighted eval table at ry is the sparse
matrix evaluation at (rx, ry). -/
theorem evalML_table_link (M : List (Nat × Nat × F)) (rx ry : List F) (m : Nat)
    (hm : m = 2 ^ rx.length) (hrows : ∀ e ∈ M, e.1 < m)
    (hcols : ∀ e ∈ M, e.2.1 < 2 ^ ry.length) :
    evalML ry (sparseEvalTable M m (chi rx)) = sparseMatEval M rx ry := by
  subst hm
  exact evalML_sparseEvalTable M rx ry hrows hcols

/-- The phase-1 sum-check claim of a satisfying assignment is zero. -/
theorem phase1_claim_zero (inst : R1CSInstance F) (vars input : List F) (kc : Nat)
    (hc : inst.num_cons = 2 ^ kc) (hsat : inst.is_sat vars input) (tau : List F) :
    (0 : F) = ∑ i ∈ Finset.range (2 ^ kc),
      chi tau i * (sparseMatVec inst.A (zfun vars input) i
        * sparseMatVec inst.B (zfun vars input) i
        - sparseMatVec inst.C (zfun vars input) i) := by
  symm
  apply Finset.sum_eq_zero
  intro i hi
  rw [hsat i (by rw [hc]; exact Finset.mem_range.mp hi), sub_self, mul_zero]

/-- Completeness of the modelled external polynomial evaluation proof. -/
theorem PolyEvalProof.poly_eval_complete (rho : Tr F Grp → String → F)
    {gens_pc : PolyCommitmentGens Grp} (h1 : gens_pc.gens.gens_1.wf1)
    (poly : List F) (hn : gens_pc.gens.gens_n.n = poly.length)
    (blind_poly : F) (point : List F) (value blind_eval : F)
    (hval : value = DensePolynomial.evaluate poly point)
    (t : Tr F Grp) (tape : RandomTape F Grp) :
    ∃ pf t2,
      PolyEvalProof.prove rho gens_pc t tape poly blind_poly point value blind_eval
        = some (pf, commitSVal value blind_eval gens_pc.gens.gens_1, t2, tape) ∧
      ∀ cv cp, cv = commitSVal value blind_eval gens_pc.gens.gens_1 →
        cp = commitVVal poly blind_poly gens_pc.gens.gens_n →
        PolyEvalProof.verify rho gens_pc pf t point cv cp = some (Except.ok t2) := by
  simp only [PolyEvalProof.prove, commitScalar_wf h1, obind_some]
  refine ⟨_, _, rfl, ?_⟩
  intro cv cp hcv hcp
  subst hcv; subst hcp
  simp only [PolyEvalProof.verify, commitVec_len hn, OE.lift_some, OE.bind_ok,
    vcheck_pos rfl]
  rw [show DensePolynomial.evaluate poly point = value from hval.symm]
  simp only [commitScalar_wf h1, OE.lift_some, OE.bind_ok, vcheck_pos rfl]
  rfl

/-- The R1CS generator bundle always builds, with the sum-check length-1 set
the clone of the polynomial-commitment length-1 set. -/
theorem R1CSGens.r1cs_gens_new_spec (gensOf : String → Nat → Grp) (label : String)
    (num_cons num_vars : Nat) :
    ∃ g : R1CSGens Grp,
      R1CSGens.new gensOf label num_cons num_vars = some g ∧
      g.gens_sc.gens_1 = g.gens_pc.gens.gens_1 ∧
      g.gens_sc.gens_1.wf1 ∧
      g.gens_sc.gens_3 = MultiCommitGens.new gensOf 3 label ∧
      g.gens_sc.gens_4 = MultiCommitGens.new gensOf 4 label ∧
      g.gens_pc.gens.gens_n.n = 2 ^ log_2 num_vars := by
  obtain ⟨dg, hdg, hn, hnn, hnG, hwf1, hh⟩ :=
    DotProductProofGens.dp_gens_new_spec gensOf (2 ^ log_2 num_vars) label
  refine ⟨R1CSGens.mk (R1CSSumcheckGens.new gensOf label dg.gens_1)
    (PolyCommitmentGens.mk dg), ?_, rfl, ?_, rfl, rfl, hnn⟩
  · simp only [R1CSGens.new, PolyCommitmentGens.new, hdg, obind_some]
  · exact hwf1

set_option maxHeartbeats 2000000 in
/-- C1: for every satisfying R1CS instance (inst, vars, input) with
power-of-two num_cons and num_vars and input.len() < vars.len(), running
R1CSProof::prove and then R1CSProof::verify with matching transcripts, the
generators built by R1CSGens::new, and evals = inst.evaluate(rx, ry) returns
Ok, and the (rx, ry) returned by prove equals the (rx, ry) returned by
verify. -/
theorem r1cs_prove_verify_complete (rho : Tr F Grp → String → F)
    (gensOf : String → Nat → Grp) (label : String)
    (inst : R1CSInstance F) (vars input : List F) (kc kv : Nat)
    (hc : inst.num_cons = 2 ^ kc) (hv : inst.num_vars = 2 ^ kv)
    (hvl : vars.length = inst.num_vars)
    (hk : input.length < vars.length)
    (hsat : inst.is_sat vars input) (hwf : inst.wf)
    (t : Tr F Grp) (tape : RandomTape F Grp) :
    ∃ gens proof rx ry t2 tape2,
      R1CSGens.new gensOf label inst.num_cons inst.num_vars = some gens ∧
      R1CSProof.prove rho inst vars input gens t tape
        = some (proof, rx, ry, t2, tape2) ∧
      R1CSProof.verify rho proof inst.num_vars inst.num_cons input
        (inst.evaluate rx ry) t gens = some (Except.ok (rx, ry, t2)) := by
  obtain ⟨g, hgnew, hg1, hgw, hg3, hg4, hgn⟩ :=
    R1CSGens.r1cs_gens_new_spec gensOf label inst.num_cons inst.num_vars
  have hgw2 : g.gens_pc.gens.gens_1.wf1 := hg1 ▸ hgw
  have hg3n : g.gens_sc.gens_3.n = 3 := by rw [hg3]; rfl
  have hg4n : g.gens_sc.gens_4.n = 4 := by rw [hg4]; rfl
  suffices h : ∃ proof rx ry t2 tape2,
      R1CSProof.prove rho inst vars input g t tape
        = some (proof, rx, ry, t2, tape2) ∧
      R1CSProof.verify rho proof inst.num_vars inst.num_cons input
        (inst.evaluate rx ry) t g = some (Except.ok (rx, ry, t2)) by
    obtain ⟨p, rx, ry, t2, tape2, h1, h2⟩ := h
    exact ⟨g, p, rx, ry, t2, tape2, hgnew, h1, h2⟩
  have hvv : vars.length = 2 ^ kv := by rw [hvl, hv]
  have hgn2 : g.gens_pc.gens.gens_n.n = vars.length := by
    rw [hgn, hv, log_2_two_pow, hvv]
  have hzl : (zlist vars input).length = 2 * vars.length := zlist_length vars input hk
  have h2v : (2 : Nat) * 2 ^ kv = 2 ^ (kv + 1) := by ring
  have hlogy : log_2 (zlist vars input).length = kv + 1 := by
    rw [hzl, hvv, h2v, log_2_two_pow]
  have hbnd : ∀ e ∈ inst.A ++ inst.B ++ inst.C,
      e.1 < 2 ^ kc ∧ e.2.1 < 2 ^ (kv + 1) := by
    intro e he
    obtain ⟨h1, h2⟩ := hwf e he
    constructor
    · rw [← hc]; exact h1
    · rw [← h2v, ← hv]; exact h2
  have hrowsA : ∀ e ∈ inst.A, e.1 < 2 ^ kc := fun e he => (hbnd e (by simp [he])).1
  have hrowsB : ∀ e ∈ inst.B, e.1 < 2 ^ kc := fun e he => (hbnd e (by simp [he])).1
  have hrowsC : ∀ e ∈ inst.C, e.1 < 2 ^ kc := fun e he => (hbnd e (by simp [he])).1
  have hcolsA : ∀ e ∈ inst.A, e.2.1 < 2 ^ (kv + 1) := fun e he => (hbnd e (by simp [he])).2
  have hcolsB : ∀ e ∈ inst.B, e.2.1 < 2 ^ (kv + 1) := fun e he => (hbnd e (by simp [he])).2
  have hcolsC : ∀ e ∈ inst.C, e.2.1 < 2 ^ (kv + 1) := fun e he => (hbnd e (by simp [he])).2
  simp only [R1CSProof.prove, DensePolynomial.commit, RandomTape.random_scalar,
    challengeScalar, R1CSInstance.get_num_cons, hc, log_2_two_pow, hlogy,
    passert_pos hk, commitVec_len hgn2, obind_some, R1CSInstance.multiply_vec,
    R1CSInstance.compute_eval_table_sparse]
  generalize ht1 :
    appendScalarList "input" input (appendMessage "protocol-name" "R1CS proof" t) = t1
  generalize hbv : rho tape "poly_blinds" = bv
  generalize htape1 : (TEntry.squeeze "poly_blinds" :: tape : RandomTape F Grp) = tape1
  generalize ht2 :
    appendPoint "poly_commitment" (commitVVal vars bv g.gens_pc.gens.gens_n) t1 = t2
  generalize hptau : challengeVector rho "challenge_tau" kc t2 = ptau
  obtain ⟨tau, t3⟩ := ptau
  have htaulen : tau.length = kc := by
    have h := challengeVector_length rho "challenge_tau" kc t2
    rw [hptau] at h
    simpa using h
  obtain ⟨sc1, rx, b1, t4, tapeP1, Hp1, Hl1, Hv1⟩ :=
    prove_cubic_complete rho hgw hg4n kc 0 0 (chi tau)
      (sparseMatVec inst.A (zfun vars input)) (sparseMatVec inst.B (zfun vars input))
      (sparseMatVec inst.C (zfun vars input)) t3 tape1
      (phase1_claim_zero inst vars input kc hc hsat tau)
  rw [Hp1]
  simp only [obind_some]
  generalize htauC : evalML rx (chi tau) = tauC
  generalize hazC : evalML rx (sparseMatVec inst.A (zfun vars input)) = azC
  generalize hbzC : evalML rx (sparseMatVec inst.B (zfun vars input)) = bzC
  generalize hczC : evalML rx (sparseMatVec inst.C (zfun vars input)) = czC
  rw [htauC, hazC, hbzC, hczC] at Hv1
  generalize hAzb : rho tapeP1 "Az_blind" = Azb
  generalize hBzb : rho (TEntry.squeeze "Az_blind" :: tapeP1) "Bz_blind" = Bzb
  generalize hCzb :
    rho (TEntry.squeeze "Bz_blind" :: TEntry.squeeze "Az_blind" :: tapeP1) "Cz_blind" = Czb
  generalize hPzb :
    rho (TEntry.squeeze "Cz_blind" :: TEntry.squeeze "Bz_blind"
      :: TEntry.squeeze "Az_blind" :: tapeP1) "prod_Az_Bz_blind" = Pzb
  generalize htapeB :
    (TEntry.squeeze "prod_Az_Bz_blind" :: TEntry.squeeze "Cz_blind"
      :: TEntry.squeeze "Bz_blind" :: TEntry.squeeze "Az_blind" :: tapeP1
      : RandomTape F Grp) = tapeB
  obtain ⟨kpf, kt2, ktape2, Hkp, Hkv⟩ := KnowledgeProof.knowledge_complete rho hgw czC Czb t4 tapeB
  rw [Hkp]
  simp only [obind_some]
  obtain ⟨ppf, pt2, ptape2, Hpp, Hpv⟩ :=
    ProductProof.product_complete rho hgw azC Azb bzC Bzb (azC * bzC) Pzb rfl kt2 ktape2
  rw [Hpp]
  simp only [obind_some]
  generalize ht5 :
    appendPoint "comm_prod_Az_Bz_claims" (commitSVal (azC * bzC) Pzb g.gens_sc.gens_1)
      (appendPoint "comm_Cz_claim" (commitSVal czC Czb g.gens_sc.gens_1)
        (appendPoint "comm_Bz_claim" (commitSVal bzC Bzb g.gens_sc.gens_1)
          (appendPoint "comm_Az_claim" (commitSVal azC Azb g.gens_sc.gens_1) pt2))) = t5
  obtain ⟨epf1, et2, etape2, Hep1, Hev1⟩ :=
    EqualityProof.equality_complete rho hgw ((azC * bzC - czC) * tauC) (tauC * (Pzb - Czb))
      ((azC * bzC - czC) * tauC) b1 rfl t5 ptape2
  rw [Hep1]
  simp only [obind_some]
  generalize hrA : rho et2 "challenege_Az" = rA
  generalize hrB : rho (TEntry.squeeze "challenege_Az" :: et2) "challenege_Bz" = rB
  generalize hrC :
    rho (TEntry.squeeze "challenege_Bz" :: TEntry.squeeze "challenege_Az" :: et2)
      "challenege_Cz" = rC
  generalize ht6 :
    (TEntry.squeeze "challenege_Cz" :: TEntry.squeeze "challenege_Bz"
      :: TEntry.squeeze "challenege_Az" :: et2 : Tr F Grp) = t6
  have hlA : ∑ i ∈ Finset.range (2 ^ (kv + 1)),
      zfun vars input i * sparseEvalTable inst.A (2 ^ kc) (chi rx) i = azC := by
    rw [zsum_evalML_link inst.A rx (zfun vars input) (2 ^ kc) (2 ^ (kv + 1))
      (by rw [Hl1]) hrowsA hcolsA, hazC]
  have hlB : ∑ i ∈ Finset.range (2 ^ (kv + 1)),
      zfun vars input i * sparseEvalTable inst.B (2 ^ kc) (chi rx) i = bzC := by
    rw [zsum_evalML_link inst.B rx (zfun vars input) (2 ^ kc) (2 ^ (kv + 1))
      (by rw [Hl1]) hrowsB hcolsB, hbzC]
  have hlC : ∑ i ∈ Finset.range (2 ^ (kv + 1)),
      zfun vars input i * sparseEvalTable inst.C (2 ^ kc) (chi rx) i = czC := by
    rw [zsum_evalML_link inst.C rx (zfun vars input) (2 ^ kc) (2 ^ (kv + 1))
      (by rw [Hl1]) hrowsC hcolsC, hczC]
  have hclaim2 : rA * azC + rB * bzC + rC * czC
      = ∑ i ∈ Finset.range (2 ^ (kv + 1)), zfun vars input i
          * (rA * sparseEvalTable inst.A (2 ^ kc) (chi rx) i
            + rB * sparseEvalTable inst.B (2 ^ kc) (chi rx) i
            + rC * sparseEvalTable inst.C (2 ^ kc) (chi rx) i) := by
    rw [sum_z_combine, hlA, hlB, hlC]
  obtain ⟨sc2, ry, b2, t7, tapeP2, Hp2, Hl2, Hv2⟩ :=
    prove_quad_complete rho hgw hg3n (kv + 1) (rA * azC + rB * bzC + rC * czC)
      (rA * Azb + rB * Bzb + rC * Czb) (zfun vars input)
      (fun i => rA * sparseEvalTable inst.A (2 ^ kc) (chi rx) i
        + rB * sparseEvalTable inst.B (2 ^ kc) (chi rx) i
        + rC * sparseEvalTable inst.C (2 ^ kc) (chi rx) i) t6 etape2 hclaim2
  rw [Hp2]
  simp only [obind_some]
  obtain ⟨r0, ry2, hryc⟩ : ∃ a l, ry = a :: l := by
    cases ry with
    | nil => simp at Hl2
    | cons a l => exact ⟨a, l, rfl⟩
  subst hryc
  have hry2len : ry2.length = kv := by simpa using Hl2
  have hryl : (r0 :: ry2 : List F).length = kv + 1 := by simp [hry2len]
  simp only [List.getD_cons_zero, List.drop_succ_cons, List.drop_zero,
    passert_pos (show 1 ≤ (r0 :: ry2 : List F).length by simp), obind_some]
  generalize hzr : evalML (r0 :: ry2) (zfun vars input) = zry
  generalize habc :
    evalML (r0 :: ry2) (fun i => rA * sparseEvalTable inst.A (2 ^ kc) (chi rx) i
      + rB * sparseEvalTable inst.B (2 ^ kc) (chi rx) i
      + rC * sparseEvalTable inst.C (2 ^ kc) (chi rx) i) = abcry
  rw [hzr, habc] at Hv2
  generalize hbe : rho tapeP2 "blind_eval" = be
  generalize htapeC : (TEntry.squeeze "blind_eval" :: tapeP2 : RandomTape F Grp) = tapeC
  obtain ⟨pepf, pet2, Hpep, Hpev⟩ :=
    PolyEvalProof.poly_eval_complete rho hgw2 vars hgn2 bv ry2
      (DensePolynomial.evaluate vars ry2) be rfl t7 tapeC
  rw [Hpep]
  simp only [obind_some]
  obtain ⟨epf2, e2t2, e2tape2, Hep2, Hev2⟩ :=
    EqualityProof.equality_complete rho hgw2 (zry * abcry) (abcry * ((1 - r0) * be))
      (zry * abcry) b2 rfl pet2 tapeC
  rw [Hep2]
  simp only [obind_some]
  refine ⟨_, rx, r0 :: ry2, e2t2, e2tape2, rfl, ?_⟩
  have habc2 : abcry = rA * sparseMatEval inst.A rx (r0 :: ry2)
      + rB * sparseMatEval inst.B rx (r0 :: ry2)
      + rC * sparseMatEval inst.C rx (r0 :: ry2) := by
    rw [← habc, evalML_linear3,
      evalML_table_link inst.A rx (r0 :: ry2) (2 ^ kc) (by rw [Hl1]) hrowsA
        (fun e he => by rw [hryl]; exact hcolsA e he),
      evalML_table_link inst.B rx (r0 :: ry2) (2 ^ kc) (by rw [Hl1]) hrowsB
        (fun e he => by rw [hryl]; exact hcolsB e he),
      evalML_table_link inst.C rx (r0 :: ry2) (2 ^ kc) (by rw [Hl1]) hrowsC
        (fun e he => by rw [hryl]; exact hcolsC e he)]
  have hie := evalML_one_input input ry2
    (by rw [hry2len, ← hvv]; exact hk)
  have hzdec : zry = (1 - r0) * DensePolynomial.evaluate vars ry2
      + r0 * SparsePolynomial.evaluate
          ((0, (1 : F)) :: (List.range input.length).map (fun i => (i + 1, input.getD i 0)))
          ry2 := by
    rw [← hzr, evalML_z_decomp vars input r0 ry2 (by rw [hry2len]; exact hvv),
      hie, DensePolynomial.evaluate]
  simp only [R1CSProof.verify, R1CSInstance.evaluate, hc, hv, log_2_two_pow, h2v,
    challengeScalar, commitScalar_wf hgw, commitScalar_wf hgw2, OE.lift_some,
    OE.bind_ok, ht1]
  rw [ht2, hptau]
  simp only [OE.bind_ok]
  rw [Hv1]
  simp only [OE.bind_ok]
  rw [Hkv _ rfl]
  simp only [OE.bind_ok]
  rw [Hpv _ _ _ rfl rfl rfl]
  simp only [OE.bind_ok]
  rw [ht5, taus_bound_prod_eq rx tau (by rw [Hl1, htaulen]), htauC]
  simp only [OE.lift_some, OE.bind_ok]
  rw [expected1_eq, Hev1 _ _ rfl (by rw [mul_comm tauC (azC * bzC - czC)])]
  simp only [OE.bind_ok]
  rw [hrA, hrB, hrC, ht6, ← commitSVal_combine3, Hv2]
  simp only [OE.bind_ok]
  rw [passert_pos (show 1 ≤ (r0 :: ry2 : List F).length by simp)]
  simp only [OE.lift_some, OE.bind_ok, List.drop_succ_cons, List.drop_zero,
    List.getD_cons_zero]
  rw [Hpev _ _ rfl rfl]
  simp only [OE.bind_ok]
  rw [hg1, Hev2 _ _ (by rw [closing2_eq, ← habc2, ← hzdec]) rfl]
  simp only [OE.bind_ok]
  rfl

/-- Witness for the R1CS completeness theorem: a concrete one-constraint,
one-variable, zero-input instance over ZMod 11 with the oracle challenges
fixed to 1 and the generator stream i + 2. -/
theorem r1cs_prove_verify_complete_witness :
    ((R1CSInstance.mk 1 1 0 [] [] [] : R1CSInstance (ZMod 11)).is_sat [3] []
      ∧ (R1CSInstance.mk 1 1 0 [] [] [] : R1CSInstance (ZMod 11)).wf
      ∧ ([] : List (ZMod 11)).length < [(3 : ZMod 11)].length)
    ∧ ∃ gens proof rx ry t2 tape2,
        R1CSGens.new (fun _ i => (i : ZMod 11) + 2) "test-m"
            (R1CSInstance.mk 1 1 0 [] [] [] : R1CSInstance (ZMod 11)).num_cons
            (R1CSInstance.mk 1 1 0 [] [] [] : R1CSInstance (ZMod 11)).num_vars
          = some gens
        ∧ R1CSProof.prove (fun _ _ => (1 : ZMod 11))
            (R1CSInstance.mk 1 1 0 [] [] []) [3] [] gens
            (Transcript.new "example") (Transcript.new "proof")
          = some (proof, rx, ry, t2, tape2)
        ∧ R1CSProof.verify (fun _ _ => (1 : ZMod 11)) proof
            (R1CSInstance.mk 1 1 0 [] [] [] : R1CSInstance (ZMod 11)).num_vars
            (R1CSInstance.mk 1 1 0 [] [] [] : R1CSInstance (ZMod 11)).num_cons []
            ((R1CSInstance.mk 1 1 0 [] [] []).evaluate rx ry)
            (Transcript.new "example") gens = some (Except.ok (rx, ry, t2)) :=
  ⟨⟨by decide, by decide, by decide⟩,
    r1cs_prove_verify_complete (fun _ _ => (1 : ZMod 11))
      (fun _ i => (i : ZMod 11) + 2) "test-m"
      (R1CSInstance.mk 1 1 0 [] [] []) [3] [] 0 0 rfl rfl rfl (by decide) (by decide)
      (by decide) (Transcript.new "example") (Transcript.new "proof")⟩

/-- C9 (corrected): the length assertion in R1CSProof::prove is exactly
input.len() < vars.len(): whenever input is at least as long as vars the
prover terminates as a malformed-input programming error (modelled none)
before producing a proof.  The claimed requirement input.len() + 1 <
vars.len() is not what the code enforces; see the counterexample theorem
for a run at input.len() + 1 = vars.len() that produces a proof. -/
theorem r1cs_prove_length_assertion (rho : Tr F Grp → String → F)
    (inst : R1CSInstance F) (vars input : List F) (gens : R1CSGens Grp)
    (t : Tr F Grp) (tape : RandomTape F Grp)
    (h : ¬ input.length < vars.length) :
    R1CSProof.prove rho inst vars input gens t tape = none := by
  simp only [R1CSProof.prove, passert_neg h]
  rfl

/-- Witness for the length-assertion theorem: empty vars and empty input. -/
theorem r1cs_prove_length_assertion_witness :
    (¬ ([] : List (ZMod 11)).length < ([] : List (ZMod 11)).length)
    ∧ R1CSProof.prove (fun _ _ => (1 : ZMod 11))
        (R1CSInstance.mk 1 1 0 [] [] []) [] []
        (R1CSGens.mk
          (R1CSSumcheckGens.mk (MultiCommitGens.mk 1 [4] 7) (MultiCommitGens.mk 1 [4] 7)
            (MultiCommitGens.mk 1 [4] 7))
          (PolyCommitmentGens.mk
            (DotProductProofGens.mk 1 (MultiCommitGens.mk 1 [4] 7)
              (MultiCommitGens.mk 1 [4] 7))) : R1CSGens (ZMod 11))
        (Transcript.new "example") (Transcript.new "proof") = none :=
  ⟨by decide,
    r1cs_prove_length_assertion (fun _ _ => (1 : ZMod 11))
      (R1CSInstance.mk 1 1 0 [] [] []) [] []
      (R1CSGens.mk
        (R1CSSumcheckGens.mk (MultiCommitGens.mk 1 [4] 7) (MultiCommitGens.mk 1 [4] 7)
          (MultiCommitGens.mk 1 [4] 7))
        (PolyCommitmentGens.mk
          (DotProductProofGens.mk 1 (MultiCommitGens.mk 1 [4] 7)
            (MultiCommitGens.mk 1 [4] 7))) : R1CSGens (ZMod 11))
      (Transcript.new "example") (Transcript.new "proof") (by decide)⟩

set_option maxHeartbeats 4000000 in
/-- Counterexample to the original C9 wording: at the boundary
input.len() + 1 = vars.len() (one variable, zero inputs) the prover does not
terminate as an error; it runs to completion and emits a proof. -/
theorem r1cs_prove_boundary_succeeds :
    ((R1CSGens.new (fun _ i => (i : ZMod 11) + 2) "test-m" 1 1).bind
      (fun gens => R1CSProof.prove (fun _ _ => (1 : ZMod 11))
        (R1CSInstance.mk 1 1 0 [] [] []) [3] [] gens
        (Transcript.new "example") (Transcript.new "proof"))).isSome = true := by
  decide

/-- C10: for every generator oracle, label, num_cons, and num_vars, the
R1CSGens built by R1CSGens::new satisfies gens_sc.gens_1 =
gens_pc.gens.gens_1 (the constructor clones the reference), so the length-1
set under which the prover produces the phase-2 closing EqualityProof
(gens_pc.gens.gens_1) is the set under which the verifier checks it
(gens_sc.gens_1). -/
theorem r1csGens_gens_1_shared (gensOf : String → Nat → Grp) (label : String)
    (num_cons num_vars : Nat) :
    ∃ g : R1CSGens Grp,
      R1CSGens.new gensOf label num_cons num_vars = some g ∧
      g.gens_sc.gens_1 = g.gens_pc.gens.gens_1 := by
  obtain ⟨g, hn, h1, _⟩ := R1CSGens.r1cs_gens_new_spec gensOf label num_cons num_vars
  exact ⟨g, hn, h1⟩

end Thms

end Spartan
